import Mathlib

/-!
# Verification of the Xadrez_AI_Final chess-engine core

A shallow embedding, in Lean 4, of the parts of the engine that the
specification's testable claims talk about:

* the two `is_insufficient_material` implementations
  (`core/search/draw.py` and `core/rules/draw.py`),
* the transposition table (`core/search/tt.py`),
* the repetition table (`core/search/repetition.py`),
* material evaluation, quiescence, negamax and the iterative-deepening
  root driver (`core/search/alphabeta.py`),
* the `Board` bitboard/mailbox container (`core/board/board.py`),
* magic sliding-attack tables (`core/moves/magic_bitboards.py`),
* `make_move`/`unmake_move`, modelled from the specification (the method
  bodies are not part of the sources; only their callers are).

Python `int` bitboards are embedded as `Nat` with explicit 64-bit masking
where the code masks; mutation is embedded as explicit state passing.
-/

/- ------------------------------------------------------------------
Bit utilities.

Python's `int.bit_count()` and `int.bit_length()` are embedded with a
structural fuel argument (the number itself bounds the number of
halvings), so that they reduce definitionally and `decide` can evaluate
them.
------------------------------------------------------------------ -/

/-- Fuel-driven popcount: `popcountAux fuel n` halves `n` at most `fuel` times. -/
def popcountAux : Nat → Nat → Nat
  | 0, _ => 0
  | fuel + 1, n => if n = 0 then 0 else n % 2 + popcountAux fuel (n / 2)

/-- Embedding of Python `int.bit_count()`. -/
def bitCount (n : Nat) : Nat := popcountAux n n

/-- Fuel-driven bit length: `bitLengthAux fuel n` halves `n` at most `fuel` times. -/
def bitLengthAux : Nat → Nat → Nat
  | 0, _ => 0
  | fuel + 1, n => if n = 0 then 0 else bitLengthAux fuel (n / 2) + 1

/-- Embedding of Python `int.bit_length()`. -/
def bitLength (n : Nat) : Nat := bitLengthAux n n

theorem popcountAux_congr : ∀ {fuel fuel' n : Nat}, n ≤ fuel → n ≤ fuel' →
    popcountAux fuel n = popcountAux fuel' n := by
  intro fuel
  induction fuel with
  | zero =>
    intro fuel' n h _
    have : n = 0 := Nat.le_zero.mp h
    subst this
    cases fuel' <;> simp [popcountAux]
  | succ fuel ih =>
    intro fuel' n h h'
    cases fuel' with
    | zero =>
      have : n = 0 := Nat.le_zero.mp h'
      subst this
      simp [popcountAux]
    | succ fuel' =>
      by_cases hn : n = 0
      · subst hn; simp [popcountAux]
      · simp only [popcountAux, hn, if_false]
        have h2 : n / 2 ≤ fuel := by omega
        have h2' : n / 2 ≤ fuel' := by omega
        rw [ih h2 h2']

/-- Recurrence for `bitCount`, mirroring the binary expansion. -/
theorem bitCount_rec (n : Nat) (h : n ≠ 0) : bitCount n = n % 2 + bitCount (n / 2) := by
  have h1 : n = (n - 1) + 1 := by omega
  unfold bitCount
  rw [h1, popcountAux]
  have hx : ¬((n - 1) + 1 = 0) := by omega
  simp only [hx, if_false]
  have harg : (n - 1) + 1 = n := by omega
  rw [harg]
  exact congrArg (n % 2 + ·) (popcountAux_congr (by omega) (Nat.le_refl _))

theorem bitCount_zero : bitCount 0 = 0 := rfl

/-- The popcount of a single set bit is one. -/
theorem bitCount_two_pow (s : Nat) : bitCount (2 ^ s) = 1 := by
  induction s with
  | zero => rfl
  | succ s ih =>
    rw [bitCount_rec _ (by positivity : (0:Nat) < 2 ^ (s+1)).ne']
    have hmod : 2 ^ (s + 1) % 2 = 0 := by
      simp [Nat.pow_succ, Nat.mul_mod_left]
    have hdiv : 2 ^ (s + 1) / 2 = 2 ^ s := by
      rw [Nat.pow_succ, Nat.mul_div_cancel]
      omega
    rw [hmod, hdiv, ih]

/-- `bitCount (1 <<< s) = 1`: a single-square bitboard holds one piece. -/
theorem bitCount_shiftLeft_one (s : Nat) : bitCount (1 <<< s) = 1 := by
  rw [Nat.shiftLeft_eq, Nat.one_mul]
  exact bitCount_two_pow s

theorem bitLengthAux_congr : ∀ {fuel fuel' n : Nat}, n ≤ fuel → n ≤ fuel' →
    bitLengthAux fuel n = bitLengthAux fuel' n := by
  intro fuel
  induction fuel with
  | zero =>
    intro fuel' n h _
    have : n = 0 := Nat.le_zero.mp h
    subst this
    cases fuel' <;> simp [bitLengthAux]
  | succ fuel ih =>
    intro fuel' n h h'
    cases fuel' with
    | zero =>
      have : n = 0 := Nat.le_zero.mp h'
      subst this
      simp [bitLengthAux]
    | succ fuel' =>
      by_cases hn : n = 0
      · subst hn; simp [bitLengthAux]
      · simp only [bitLengthAux, hn, if_false]
        have h2 : n / 2 ≤ fuel := by omega
        have h2' : n / 2 ≤ fuel' := by omega
        rw [ih h2 h2']

/-- Recurrence for `bitLength`. -/
theorem bitLength_rec (n : Nat) (h : n ≠ 0) : bitLength n = bitLength (n / 2) + 1 := by
  have h1 : n = (n - 1) + 1 := by omega
  unfold bitLength
  rw [h1, bitLengthAux]
  have hx : ¬((n - 1) + 1 = 0) := by omega
  simp only [hx, if_false]
  have harg : (n - 1) + 1 = n := by omega
  rw [harg]
  exact congrArg (· + 1) (bitLengthAux_congr (by omega) (Nat.le_refl _))

/-- `bit_length` of a single-bit number: the index of that bit plus one. -/
theorem bitLength_two_pow (s : Nat) : bitLength (2 ^ s) = s + 1 := by
  induction s with
  | zero => rfl
  | succ s ih =>
    rw [bitLength_rec _ (by positivity : (0:Nat) < 2 ^ (s+1)).ne']
    have hdiv : 2 ^ (s + 1) / 2 = 2 ^ s := by
      rw [Nat.pow_succ, Nat.mul_div_cancel]
      omega
    rw [hdiv, ih]

theorem bitLength_shiftLeft_one (s : Nat) : bitLength (1 <<< s) = s + 1 := by
  rw [Nat.shiftLeft_eq, Nat.one_mul]
  exact bitLength_two_pow s

/-- A nonzero bitboard holds at least one piece. -/
theorem bitCount_pos (n : Nat) (h : n ≠ 0) : 0 < bitCount n := by
  induction n using Nat.strong_induction_on with
  | _ n ih =>
    rw [bitCount_rec n h]
    rcases Nat.mod_two_eq_zero_or_one n with hm | hm
    · have hd : n / 2 ≠ 0 := by omega
      have := ih (n / 2) (by omega) hd
      omega
    · omega

/- ------------------------------------------------------------------
C2: insufficient material, `core/search/draw.py` and `core/rules/draw.py`.

Both functions read `board.bitboards[color]`, a 6-entry list indexed by
PieceType (PAWN=0, KNIGHT=1, BISHOP=2, ROOK=3, QUEEN=4, KING=5).
------------------------------------------------------------------ -/

/-- The part of the board state the draw detectors read: one bitboard per
(color, piece type). -/
structure DrawBB where
  white : Fin 6 → Nat
  black : Fin 6 → Nat

/-- `sum(bb.bit_count() for bb in board.bitboards[color])`. -/
def sumBitCounts (f : Fin 6 → Nat) : Nat :=
  bitCount (f 0) + bitCount (f 1) + bitCount (f 2) + bitCount (f 3) +
    bitCount (f 4) + bitCount (f 5)

/-- Embedding of `is_insufficient_material` from `core/search/draw.py`
(the module `core/search/alphabeta.py` imports). It recognises only
K vs K and K vs K+minor. -/
def isInsufficientMaterialSearch (b : DrawBB) : Bool :=
  let white_pieces := sumBitCounts b.white
  let black_pieces := sumBitCounts b.black
  if white_pieces = 1 ∧ black_pieces = 1 then true
  else if white_pieces = 1 ∧ black_pieces = 2 ∧ bitCount (b.black 2) = 1 then true
  else if white_pieces = 1 ∧ black_pieces = 2 ∧ bitCount (b.black 1) = 1 then true
  else if black_pieces = 1 ∧ white_pieces = 2 ∧ bitCount (b.white 2) = 1 then true
  else if black_pieces = 1 ∧ white_pieces = 2 ∧ bitCount (b.white 1) = 1 then true
  else false

/-- Colour complex of the square carrying the single set bit of `bb`,
as computed by `core/rules/draw.py`: `sq = bb.bit_length() - 1;
(sq + sq // 8) % 2`. -/
def bishopSquareComplex (bb : Nat) : Nat :=
  let sq := bitLength bb - 1
  (sq + sq / 8) % 2

/-- Embedding of `is_insufficient_material` from `core/rules/draw.py`.
On top of the `core/search/draw.py` cases it recognises K+B vs K+B with
same-complex bishops and K+N vs K+N. -/
def isInsufficientMaterialRules (b : DrawBB) : Bool :=
  let white_total := sumBitCounts b.white
  let black_total := sumBitCounts b.black
  if white_total = 1 ∧ black_total = 1 then true
  else if white_total = 1 ∧ black_total = 2 ∧ bitCount (b.black 2) = 1 then true
  else if white_total = 1 ∧ black_total = 2 ∧ bitCount (b.black 1) = 1 then true
  else if black_total = 1 ∧ white_total = 2 ∧ bitCount (b.white 2) = 1 then true
  else if black_total = 1 ∧ white_total = 2 ∧ bitCount (b.white 1) = 1 then true
  else if white_total = 2 ∧ black_total = 2 ∧ bitCount (b.white 2) = 1 ∧
      bitCount (b.black 2) = 1 ∧
      bishopSquareComplex (b.white 2) = bishopSquareComplex (b.black 2) then true
  else if white_total = 2 ∧ black_total = 2 ∧ bitCount (b.white 1) = 1 ∧
      bitCount (b.black 1) = 1 then true
  else false

/-- A board holding the two kings plus exactly one knight per side. -/
def knknBoard (wk wn bk bn : Nat) : DrawBB where
  white := fun p => if p = 5 then 1 <<< wk else if p = 1 then 1 <<< wn else 0
  black := fun p => if p = 5 then 1 <<< bk else if p = 1 then 1 <<< bn else 0

/-- A board holding the two kings plus exactly one bishop per side. -/
def kbkbBoard (wk wb bk bb : Nat) : DrawBB where
  white := fun p => if p = 5 then 1 <<< wk else if p = 2 then 1 <<< wb else 0
  black := fun p => if p = 5 then 1 <<< bk else if p = 2 then 1 <<< bb else 0

/-- A concrete board for exercising the pawn clause: white king e1 and
white pawn a2 versus black king e8. -/
def c2PawnBoard : DrawBB where
  white := fun p => if p = 5 then 1 <<< 4 else if p = 0 then 1 <<< 8 else 0
  black := fun p => if p = 5 then 1 <<< 60 else 0

/-- C2 counterexample: on the board with white king e1, white knight b1,
black king e8, black knight b8 (two kings plus one knight per side), the
`is_insufficient_material` of `core/search/draw.py` — one of the two
implementations the claim ranges over, and the one the search actually
calls — returns `False`, not `True` as claimed. -/
theorem c2_insufficient_material_counterexample :
    ¬ (isInsufficientMaterialSearch (knknBoard 4 1 60 57) = true) := by decide

/-- C2 amended: for two kings plus one knight per side, and for two kings
plus one same-complex bishop per side, `core/rules/draw.py` returns true
while `core/search/draw.py` (used by the search) returns false; on any
board with one king per side and a pawn, rook or queen anywhere, both
implementations return false. -/
theorem c2_insufficient_material_amended :
    (∀ wk wn bk bn : Nat,
        isInsufficientMaterialRules (knknBoard wk wn bk bn) = true ∧
        isInsufficientMaterialSearch (knknBoard wk wn bk bn) = false) ∧
    (∀ wk wb bk bb : Nat,
        (wb + wb / 8) % 2 = (bb + bb / 8) % 2 →
        isInsufficientMaterialRules (kbkbBoard wk wb bk bb) = true ∧
        isInsufficientMaterialSearch (kbkbBoard wk wb bk bb) = false) ∧
    (∀ b : DrawBB,
        bitCount (b.white 5) = 1 → bitCount (b.black 5) = 1 →
        (b.white 0 ≠ 0 ∨ b.white 3 ≠ 0 ∨ b.white 4 ≠ 0 ∨
         b.black 0 ≠ 0 ∨ b.black 3 ≠ 0 ∨ b.black 4 ≠ 0) →
        isInsufficientMaterialRules b = false ∧
        isInsufficientMaterialSearch b = false) := by
  refine ⟨fun wk wn bk bn => ⟨?_, ?_⟩, fun wk wb bk bb h => ⟨?_, ?_⟩, fun b h5w h5b hprq => ?_⟩
  · simp [isInsufficientMaterialRules, knknBoard, sumBitCounts, bitCount_shiftLeft_one,
      bitCount_zero]
  · simp [isInsufficientMaterialSearch, knknBoard, sumBitCounts, bitCount_shiftLeft_one,
      bitCount_zero]
  · simp [isInsufficientMaterialRules, kbkbBoard, sumBitCounts, bitCount_shiftLeft_one,
      bitCount_zero, bishopSquareComplex, bitLength_shiftLeft_one, h]
  · simp [isInsufficientMaterialSearch, kbkbBoard, sumBitCounts, bitCount_shiftLeft_one,
      bitCount_zero]
  · have hpos : 0 < bitCount (b.white 0) + bitCount (b.white 3) + bitCount (b.white 4) +
        bitCount (b.black 0) + bitCount (b.black 3) + bitCount (b.black 4) := by
      rcases hprq with h | h | h | h | h | h <;>
        have := bitCount_pos _ h <;> omega
    constructor
    · simp only [isInsufficientMaterialRules, sumBitCounts]
      split_ifs with h1 h2 h3 h4 h5 h6 h7 <;> first | rfl | omega
    · simp only [isInsufficientMaterialSearch, sumBitCounts]
      split_ifs with h1 h2 h3 h4 h5 <;> first | rfl | omega

/-- Concrete instantiation of the amended C2 theorem: kings e1/e8 with
knights b1/b8; kings e1/e8 with bishops b2/c3 (both dark squares); and a
white pawn a2 beside the kings. -/
theorem c2_insufficient_material_amended_witness :
    (isInsufficientMaterialRules (knknBoard 4 1 60 57) = true ∧
      isInsufficientMaterialSearch (knknBoard 4 1 60 57) = false) ∧
    (isInsufficientMaterialRules (kbkbBoard 4 9 60 18) = true ∧
      isInsufficientMaterialSearch (kbkbBoard 4 9 60 18) = false) ∧
    (isInsufficientMaterialRules c2PawnBoard = false ∧
      isInsufficientMaterialSearch c2PawnBoard = false) :=
  ⟨c2_insufficient_material_amended.1 4 1 60 57,
   c2_insufficient_material_amended.2.1 4 9 60 18 (by decide),
   c2_insufficient_material_amended.2.2 c2PawnBoard (by decide) (by decide)
     (Or.inl (by decide))⟩

/- ------------------------------------------------------------------
C7: the transposition table, `core/search/tt.py`.

`TranspositionTable.__init__` allocates `size = 2^k` fresh `TTEntry()`
records (all fields defaulted: `key=0, depth=-1, flag=EXACT, value=0,
best_move=None, age=0`) and sets `_mask = size - 1`.  The fixed-size
list is embedded as an index-to-entry function together with the mask;
`store` is the only mutator of a slot.  The slot-emptiness test of the
code is `entry.key == 0`, i.e. the `TTEntry()` default key.  The type of
`best_move` is `Any` in the code; it is a type parameter here.
------------------------------------------------------------------ -/

/-- Embedding of the `TTEntry` dataclass. -/
structure TTEntry (α : Type) where
  key : Nat
  depth : Int
  flag : Nat
  value : Int
  bestMove : Option α
  age : Nat
  deriving DecidableEq

/-- The `TTEntry()` default record. -/
def TTEntry.empty {α : Type} : TTEntry α := ⟨0, -1, 0, 0, none, 0⟩

/-- Embedding of `TranspositionTable`: the entry list as a function from
index to entry, plus `_mask = size - 1` and the search age. -/
structure TranspositionTable (α : Type) where
  mask : Nat
  table : Nat → TTEntry α
  age : Nat

/-- `_index(key) = key & _mask`. -/
def TranspositionTable.index {α : Type} (t : TranspositionTable α) (key : Nat) : Nat :=
  key &&& t.mask

/-- Embedding of `TranspositionTable.probe`. -/
def TranspositionTable.probe {α : Type} (t : TranspositionTable α) (key : Nat) :
    Option (TTEntry α) :=
  let e := t.table (t.index key)
  if e.key = key then some e else none

/-- Embedding of `TranspositionTable.store`, with the replacement policy
written as the same `if`/`elif` cascade as the code. -/
def TranspositionTable.store {α : Type} (t : TranspositionTable α)
    (key : Nat) (depth : Int) (flag : Nat) (value : Int) (bestMove : Option α) :
    TranspositionTable α :=
  let idx := t.index key
  let e := t.table idx
  let newEntry : TTEntry α := ⟨key, depth, flag, value, bestMove, t.age⟩
  if e.key = 0 then
    { t with table := Function.update t.table idx newEntry }
  else if e.depth < depth then
    { t with table := Function.update t.table idx newEntry }
  else if t.age ≠ e.age ∧ depth = e.depth then
    { t with table := Function.update t.table idx newEntry }
  else t

/-- Embedding of `TranspositionTable.new_search`: age wraps mod 256. -/
def TranspositionTable.newSearch {α : Type} (t : TranspositionTable α) :
    TranspositionTable α :=
  { t with age := (t.age + 1) &&& 0xFF }

/-- C7: `store(key, depth, flag, value, best_move)` writes the
direct-mapped slot `key & (size-1)` exactly when the slot is empty
(the code's emptiness test: the stored key is the `TTEntry()` default
`0`), or the incoming depth is strictly greater, or the depths are equal
and the table's current age differs from the entry's age; every other
slot, and the slot itself in every other case, is unchanged. -/
theorem c7_tt_store_replacement {α : Type} (t : TranspositionTable α)
    (key : Nat) (depth : Int) (flag : Nat) (value : Int) (bm : Option α) (j : Nat) :
    (t.store key depth flag value bm).table j =
      if j = key &&& t.mask ∧
          ((t.table (key &&& t.mask)).key = 0 ∨
           (t.table (key &&& t.mask)).depth < depth ∨
           (depth = (t.table (key &&& t.mask)).depth ∧
             t.age ≠ (t.table (key &&& t.mask)).age))
      then ⟨key, depth, flag, value, bm, t.age⟩
      else t.table j := by
  simp only [TranspositionTable.store, TranspositionTable.index]
  by_cases h1 : (t.table (key &&& t.mask)).key = 0
  · rw [if_pos h1]
    by_cases hj : j = key &&& t.mask
    · rw [if_pos ⟨hj, Or.inl h1⟩]
      subst hj
      exact Function.update_same _ _ _
    · rw [if_neg (fun hc => hj hc.1)]
      exact Function.update_noteq hj _ _
  · rw [if_neg h1]
    by_cases h2 : (t.table (key &&& t.mask)).depth < depth
    · rw [if_pos h2]
      by_cases hj : j = key &&& t.mask
      · rw [if_pos ⟨hj, Or.inr (Or.inl h2)⟩]
        subst hj
        exact Function.update_same _ _ _
      · rw [if_neg (fun hc => hj hc.1)]
        exact Function.update_noteq hj _ _
    · rw [if_neg h2]
      by_cases h3 : t.age ≠ (t.table (key &&& t.mask)).age ∧
          depth = (t.table (key &&& t.mask)).depth
      · rw [if_pos h3]
        by_cases hj : j = key &&& t.mask
        · rw [if_pos ⟨hj, Or.inr (Or.inr ⟨h3.2, h3.1⟩)⟩]
          subst hj
          exact Function.update_same _ _ _
        · rw [if_neg (fun hc => hj hc.1)]
          exact Function.update_noteq hj _ _
      · rw [if_neg h3]
        have hcond : ¬ (j = key &&& t.mask ∧
            ((t.table (key &&& t.mask)).key = 0 ∨
             (t.table (key &&& t.mask)).depth < depth ∨
             (depth = (t.table (key &&& t.mask)).depth ∧
               t.age ≠ (t.table (key &&& t.mask)).age))) := by
          rintro ⟨hj, hd | hd | ⟨hd, ha⟩⟩
          · exact h1 hd
          · exact h2 hd
          · exact h3 ⟨ha, hd⟩
        rw [if_neg hcond]

/- ------------------------------------------------------------------
C9: the repetition table, `core/search/repetition.py`.

`RepetitionTable` keeps `_count`, a dict from Zobrist key to occurrence
count, and `_stack`, the keys in push order.  The dict is embedded as an
association list (first entry with the key wins), which keeps every
operation executable.  `pop()` is embedded as an `Option`-valued
function returning the popped key next to the new state: Python raises
`IndexError` on an empty stack (and `KeyError` on a missing count),
which the `none` result models.
------------------------------------------------------------------ -/

/-- Lookup in an association-list dict (Python `dict.__getitem__`). -/
def dictGet (d : List (Nat × Int)) (k : Nat) : Option Int :=
  (d.find? (fun e => e.1 == k)).map (fun e => e.2)

/-- Write in an association-list dict (Python `dict.__setitem__`). -/
def dictSet : List (Nat × Int) → Nat → Int → List (Nat × Int)
  | [], k, v => [(k, v)]
  | e :: rest, k, v => if e.1 = k then (k, v) :: rest else e :: dictSet rest k v

/-- Delete from an association-list dict (Python `del d[k]`). -/
def dictDel : List (Nat × Int) → Nat → List (Nat × Int)
  | [], _ => []
  | e :: rest, k => if e.1 = k then dictDel rest k else e :: dictDel rest k

/-- Embedding of `RepetitionTable`: occurrence dict plus key stack. -/
structure RepetitionTable where
  count : List (Nat × Int)
  stack : List Nat
  deriving DecidableEq

/-- `RepetitionTable()`. -/
def RepetitionTable.empty : RepetitionTable := ⟨[], []⟩

/-- Embedding of `RepetitionTable.push`. -/
def RepetitionTable.push (t : RepetitionTable) (k : Nat) : RepetitionTable :=
  ⟨dictSet t.count k ((dictGet t.count k).getD 0 + 1), k :: t.stack⟩

/-- Embedding of `RepetitionTable.pop`; the popped key is returned for
use by the statements below (the Python method drops it). -/
def RepetitionTable.pop (t : RepetitionTable) : Option (Nat × RepetitionTable) :=
  match t.stack with
  | [] => none
  | k :: rest =>
    match dictGet t.count k with
    | none => none
    | some c =>
      let cnt := c - 1
      if cnt ≤ 0 then some (k, ⟨dictDel t.count k, rest⟩)
      else some (k, ⟨dictSet t.count k cnt, rest⟩)

/-- Embedding of `RepetitionTable.is_threefold`:
`self._count.get(zobrist_key, 0) >= 3`. -/
def RepetitionTable.isThreefold (t : RepetitionTable) (k : Nat) : Bool :=
  3 ≤ (dictGet t.count k).getD 0

/-- An operation applied to a `RepetitionTable`. -/
inductive RepOp where
  | push (k : Nat)
  | pop
  deriving DecidableEq

/-- Run a sequence of operations, recording the keys the pops removed.
`none` models a Python exception (pop on an empty table). -/
def runRepOps : RepetitionTable → List RepOp → Option (RepetitionTable × List Nat)
  | t, [] => some (t, [])
  | t, RepOp.push k :: rest => runRepOps (t.push k) rest
  | t, RepOp.pop :: rest =>
    (t.pop).bind fun kt =>
      (runRepOps kt.2 rest).map fun tp => (tp.1, kt.1 :: tp.2)

/-- Number of `push k` operations in a sequence. -/
def pushesOf (ops : List RepOp) (k : Nat) : Nat :=
  ops.count (RepOp.push k)

theorem dictGet_dictSet_self (d : List (Nat × Int)) (k : Nat) (v : Int) :
    dictGet (dictSet d k v) k = some v := by
  induction d with
  | nil =>
    simp only [dictGet, dictSet]
    rw [List.find?_cons_of_pos _ (by simp)]
    rfl
  | cons e rest ih =>
    by_cases h : e.1 = k
    · simp only [dictGet, dictSet, if_pos h]
      rw [List.find?_cons_of_pos _ (by simp)]
      rfl
    · simp only [dictGet, dictSet, if_neg h]
      rw [List.find?_cons_of_neg _ (by simp [h])]
      exact ih

theorem dictGet_dictSet_other (d : List (Nat × Int)) (k : Nat) (v : Int) (j : Nat)
    (h : j ≠ k) : dictGet (dictSet d k v) j = dictGet d j := by
  induction d with
  | nil =>
    simp only [dictGet, dictSet]
    rw [List.find?_cons_of_neg _ (by simp [Ne.symm h])]
  | cons e rest ih =>
    by_cases he : e.1 = k
    · simp only [dictGet, dictSet, if_pos he]
      rw [List.find?_cons_of_neg _ (by simp [Ne.symm h]),
        List.find?_cons_of_neg _ (by simp [he, Ne.symm h])]
    · simp only [dictGet, dictSet, if_neg he]
      by_cases hej : e.1 = j
      · rw [List.find?_cons_of_pos _ (by simp [hej]),
          List.find?_cons_of_pos _ (by simp [hej])]
      · rw [List.find?_cons_of_neg _ (by simp [hej]),
          List.find?_cons_of_neg _ (by simp [hej])]
        exact ih

theorem dictGet_dictDel_self (d : List (Nat × Int)) (k : Nat) :
    dictGet (dictDel d k) k = none := by
  induction d with
  | nil => simp [dictGet, dictDel]
  | cons e rest ih =>
    by_cases h : e.1 = k
    · simpa [dictDel, if_pos h] using ih
    · simp only [dictGet, dictDel, if_neg h]
      rw [List.find?_cons_of_neg _ (by simp [h])]
      exact ih

theorem dictGet_dictDel_other (d : List (Nat × Int)) (k : Nat) (j : Nat)
    (h : j ≠ k) : dictGet (dictDel d k) j = dictGet d j := by
  induction d with
  | nil => simp [dictGet, dictDel]
  | cons e rest ih =>
    by_cases he : e.1 = k
    · simp only [dictGet, dictDel, if_pos he] at ih ⊢
      rw [ih, List.find?_cons_of_neg _ (by simp [he, Ne.symm h])]
    · simp only [dictGet, dictDel, if_neg he] at ih ⊢
      by_cases hej : e.1 = j
      · rw [List.find?_cons_of_pos _ (by simp [hej]),
          List.find?_cons_of_pos _ (by simp [hej])]
      · rw [List.find?_cons_of_neg _ (by simp [hej]),
          List.find?_cons_of_neg _ (by simp [hej])]
        exact ih

/-- The dict mirrors the stack: the recorded count of a key is its
multiplicity on the stack, with the entry deleted at multiplicity zero. -/
def RepInv (t : RepetitionTable) : Prop :=
  ∀ k, dictGet t.count k =
    if t.stack.count k = 0 then none else some (t.stack.count k : Int)

theorem repInv_empty : RepInv RepetitionTable.empty := by
  intro k
  simp [RepetitionTable.empty, dictGet]

theorem repInv_push {t : RepetitionTable} (h : RepInv t) (k : Nat) :
    RepInv (t.push k) := by
  intro j
  by_cases hj : j = k
  · subst hj
    have hcount : ((t.push j).stack).count j = t.stack.count j + 1 := by
      simp [RepetitionTable.push]
    rw [RepetitionTable.push, dictGet_dictSet_self]
    simp only [RepetitionTable.push] at hcount ⊢
    rw [hcount]
    have := h j
    by_cases h0 : t.stack.count j = 0 <;> simp [h0, this] <;> push_cast <;> ring_nf <;> omega
  · have hcount : ((t.push k).stack).count j = t.stack.count j := by
      simp [RepetitionTable.push, List.count_cons, hj]
    rw [RepetitionTable.push, dictGet_dictSet_other _ _ _ _ hj]
    simp only [RepetitionTable.push] at hcount ⊢
    rw [hcount]
    exact h j

theorem repInv_pop {t : RepetitionTable} (h : RepInv t) {k : Nat} {rest : List Nat}
    (hs : t.stack = k :: rest) :
    t.pop = some (k, ⟨if rest.count k = 0 then dictDel t.count k
                      else dictSet t.count k (rest.count k : Int), rest⟩) ∧
    RepInv ⟨if rest.count k = 0 then dictDel t.count k
            else dictSet t.count k (rest.count k : Int), rest⟩ := by
  obtain ⟨cnt, stk⟩ := t
  simp only at hs
  subst hs
  have hcons : ((k :: rest : List Nat).count k) = rest.count k + 1 := by
    simp [List.count_cons]
  have hget : dictGet cnt k = some ((rest.count k : Int) + 1) := by
    have hk := h k
    simp only [hcons] at hk
    rw [if_neg (by omega)] at hk
    rw [hk]
    norm_cast
  constructor
  · simp only [RepetitionTable.pop, hget]
    by_cases h0 : rest.count k = 0
    · have hle : (rest.count k : Int) + 1 - 1 ≤ 0 := by
        rw [h0]; norm_num
      rw [if_pos h0]
      simp [hle]
      intro hc
      exact absurd h0 hc
    · have hle : ¬ ((rest.count k : Int) + 1 - 1 ≤ 0) := by
        have : (0:Int) < rest.count k := by exact_mod_cast Nat.pos_of_ne_zero h0
        omega
      rw [if_neg h0]
      simp [hle]
      intro hc
      exact absurd hc h0
  · intro j
    by_cases hj : j = k
    · subst hj
      by_cases h0 : rest.count j = 0
      · rw [if_pos h0]
        simp [h0, dictGet_dictDel_self]
      · rw [if_neg h0]
        simp [h0, dictGet_dictSet_self]
    · have hcnt : ((k :: rest : List Nat).count j) = rest.count j := by
        simp [List.count_cons, hj]
      have hj' := h j
      simp only [hcnt] at hj'
      by_cases h0 : rest.count k = 0
      · rw [if_pos h0]
        simp only [dictGet_dictDel_other _ _ _ hj]
        exact hj'
      · rw [if_neg h0]
        simp only [dictGet_dictSet_other _ _ _ _ hj]
        exact hj'


/-- Running a valid operation sequence preserves the dict/stack
invariant, and the final stack multiplicity of each key is its initial
multiplicity plus its pushes minus the pops that removed it. -/
theorem runRepOps_spec : ∀ (ops : List RepOp) (t t' : RepetitionTable)
    (popped : List Nat), RepInv t → runRepOps t ops = some (t', popped) →
    RepInv t' ∧
      ∀ k, t'.stack.count k + popped.count k = t.stack.count k + pushesOf ops k := by
  intro ops
  induction ops with
  | nil =>
    intro t t' popped hinv hrun
    simp only [runRepOps, Option.some.injEq, Prod.mk.injEq] at hrun
    obtain ⟨rfl, rfl⟩ := hrun
    exact ⟨hinv, fun k => by simp [pushesOf]⟩
  | cons op rest ih =>
    intro t t' popped hinv hrun
    cases op with
    | push k0 =>
      simp only [runRepOps] at hrun
      obtain ⟨hinv2, hcount⟩ := ih (t.push k0) t' popped (repInv_push hinv k0) hrun
      refine ⟨hinv2, fun k => ?_⟩
      have hc := hcount k
      have hstack : (t.push k0).stack.count k = t.stack.count k +
          (if k0 = k then 1 else 0) := by
        simp [RepetitionTable.push, List.count_cons]
      have hpush : pushesOf (RepOp.push k0 :: rest) k = pushesOf rest k +
          (if k0 = k then 1 else 0) := by
        simp only [pushesOf, List.count_cons]
        split <;> simp_all
      rw [hstack] at hc
      rw [hpush]
      omega
    | pop =>
      simp only [runRepOps] at hrun
      cases hstk : t.stack with
      | nil =>
        rw [show t.pop = none from by
          obtain ⟨cnt, stk⟩ := t
          simp only at hstk
          subst hstk
          rfl] at hrun
        simp at hrun
      | cons k0 tail =>
        obtain ⟨hpop, hinv1⟩ := repInv_pop hinv hstk
        rw [hpop] at hrun
        simp only [Option.bind] at hrun
        cases hrest : runRepOps ⟨if tail.count k0 = 0 then dictDel t.count k0
            else dictSet t.count k0 (tail.count k0 : Int), tail⟩ rest with
        | none =>
          rw [hrest] at hrun
          exact absurd hrun (by simp)
        | some tp =>
          rw [hrest] at hrun
          simp only [Option.map_some', Option.some.injEq] at hrun
          obtain ⟨t2, popped2⟩ := tp
          obtain ⟨hinv2, hcount2⟩ := ih _ t2 popped2 hinv1 hrest
          have ht2 : t2 = t' ∧ k0 :: popped2 = popped := by
            constructor
            · exact congrArg Prod.fst hrun
            · exact congrArg Prod.snd hrun
          obtain ⟨rfl, rfl⟩ := ht2
          refine ⟨hinv2, fun k => ?_⟩
          have hc := hcount2 k
          simp only at hc
          have hstack : ((k0 :: tail : List Nat).count k) = tail.count k +
              (if k0 = k then 1 else 0) := by
            simp [List.count_cons]
          have hpopc : (k0 :: popped2).count k = popped2.count k +
              (if k0 = k then 1 else 0) := by
            simp [List.count_cons]
          have hpush : pushesOf (RepOp.pop :: rest) k = pushesOf rest k := by
            simp [pushesOf, List.count_cons]
          rw [hstack, hpopc, hpush]
          omega

/-- C9: after any successful sequence of push/pop operations starting
from the empty table, `is_threefold(k)` is true exactly when the pushes
of `k` minus the pops that removed `k` number at least three. -/
theorem c9_repetition_threefold (ops : List RepOp) (t : RepetitionTable)
    (popped : List Nat) (k : Nat)
    (h : runRepOps RepetitionTable.empty ops = some (t, popped)) :
    t.isThreefold k = true ↔ 3 ≤ pushesOf ops k - popped.count k := by
  obtain ⟨hinv, hcount⟩ := runRepOps_spec ops _ t popped repInv_empty h
  have hc := hcount k
  simp only [RepetitionTable.empty, List.count_nil] at hc
  have hinvk := hinv k
  simp only [RepetitionTable.isThreefold, decide_eq_true_eq, hinvk]
  by_cases h0 : t.stack.count k = 0
  · simp only [h0, if_pos rfl, Option.getD_none]
    constructor
    · intro h3
      exact absurd h3 (by norm_num)
    · intro h3
      omega
  · simp only [if_neg h0, Option.getD_some]
    constructor
    · intro h3
      have : 3 ≤ t.stack.count k := by exact_mod_cast h3
      omega
    · intro h3
      have : 3 ≤ t.stack.count k := by omega
      exact_mod_cast this

/-- The operation sequence pushing the key 42 three times. -/
def c9OpsThree : List RepOp := [RepOp.push 42, RepOp.push 42, RepOp.push 42]

/-- The same sequence followed by one pop. -/
def c9OpsThreePop : List RepOp := c9OpsThree ++ [RepOp.pop]

/-- The table state after `c9OpsThree`. -/
def c9TableThree : RepetitionTable := ⟨[(42, 3)], [42, 42, 42]⟩

/-- The table state after `c9OpsThreePop`. -/
def c9TableTwo : RepetitionTable := ⟨[(42, 2)], [42, 42]⟩

/-- Concrete instantiation of C9: three pushes of a key make
`is_threefold` true; one subsequent pop makes it false again. -/
theorem c9_repetition_threefold_witness :
    c9TableThree.isThreefold 42 = true ∧ c9TableTwo.isThreefold 42 = false := by
  constructor
  · exact (c9_repetition_threefold c9OpsThree c9TableThree [] 42 (by decide)).mpr
      (by decide)
  · have h := c9_repetition_threefold c9OpsThreePop c9TableTwo [42] 42 (by decide)
    have hne : ¬ (c9TableTwo.isThreefold 42 = true) := fun hh => by
      have h3 := h.mp hh
      revert h3
      decide
    exact Bool.eq_false_iff.mpr hne

/- ------------------------------------------------------------------
C6 and C10: the `Board` container, `core/board/board.py`.

`Board` keeps 12 piece bitboards, two occupancy bitboards, the union
occupancy, and a 64-cell mailbox.  `set_piece_at` asserts the target
square empty and `move_piece` asserts a piece on `from_sq`; a failing
assertion is modelled as `none`.  The `_validate_local` calls assert a
subset of the invariants proved below and are omitted from the
embedding (the theorems show they would always pass).
------------------------------------------------------------------ -/

/-- Python `x &= ~bit` on nonnegative ints clears the bits of `bit`;
embedded as `(x ||| bit) ^^^ bit`, which agrees for every natural `x`. -/
def clearBit (x bit : Nat) : Nat := (x ||| bit) ^^^ bit

theorem testBit_clearBit (x bit i : Nat) :
    (clearBit x bit).testBit i = (x.testBit i && !bit.testBit i) := by
  simp only [clearBit, Nat.testBit_xor, Nat.testBit_lor]
  cases hx : x.testBit i <;> cases hb : bit.testBit i <;> rfl

theorem testBit_single (s i : Nat) : (1 <<< s).testBit i = decide (s = i) := by
  rw [Nat.shiftLeft_eq, Nat.one_mul, Nat.testBit_two_pow]

/-- Embedding of the `Board` container of `core/board/board.py`:
12 piece bitboards, 2 occupancy bitboards, the union occupancy, and the
64-cell mailbox. -/
structure PBoard where
  bitboards : Fin 2 → Fin 6 → Nat
  occupancy : Fin 2 → Nat
  all_occupancy : Nat
  mailbox : Fin 64 → Option (Fin 2 × Fin 6)

/-- The empty board (`Board(setup=False)` after `clear()`). -/
def PBoard.empty : PBoard :=
  ⟨fun _ _ => 0, fun _ => 0, 0, fun _ => none⟩

/-- Embedding of `Board.clear`. -/
def PBoard.clear (_ : PBoard) : PBoard := PBoard.empty

/-- Embedding of `Board.set_piece_at`; `none` models the
"Square already occupied" assertion failure. -/
def PBoard.setPieceAt (b : PBoard) (square : Fin 64) (color : Fin 2) (piece : Fin 6) :
    Option PBoard :=
  let bit := 1 <<< (square : Nat)
  if b.all_occupancy &&& bit = 0 then
    some { bitboards := fun c p =>
             if c = color ∧ p = piece then b.bitboards c p ||| bit else b.bitboards c p
           occupancy := fun c =>
             if c = color then b.occupancy c ||| bit else b.occupancy c
           all_occupancy := b.all_occupancy ||| bit
           mailbox := Function.update b.mailbox square (some (color, piece)) }
  else none

/-- Embedding of `Board.remove_piece_at` (a no-op on an empty square). -/
def PBoard.removePieceAt (b : PBoard) (square : Fin 64) : PBoard :=
  match b.mailbox square with
  | none => b
  | some (color, piece) =>
    let bit := 1 <<< (square : Nat)
    { bitboards := fun c p =>
        if c = color ∧ p = piece then clearBit (b.bitboards c p) bit else b.bitboards c p
      occupancy := fun c =>
        if c = color then clearBit (b.occupancy c) bit else b.occupancy c
      all_occupancy := clearBit b.all_occupancy bit
      mailbox := Function.update b.mailbox square none }

/-- Embedding of `Board.move_piece`; `none` models the
"No piece at from_sq" assertion failure. -/
def PBoard.movePiece (b : PBoard) (from_sq to_sq : Fin 64) : Option PBoard :=
  if from_sq = to_sq then some b
  else
    match b.mailbox from_sq with
    | none => none
    | some (color, piece) =>
      let src_bit := 1 <<< (from_sq : Nat)
      let dst_bit := 1 <<< (to_sq : Nat)
      let b1 := if (b.mailbox to_sq).isSome then b.removePieceAt to_sq else b
      let occ2 : Fin 2 → Nat := fun c =>
        if c = color then b1.occupancy c ^^^ (src_bit ||| dst_bit) else b1.occupancy c
      some { bitboards := fun c p =>
               if c = color ∧ p = piece then b1.bitboards c p ^^^ (src_bit ||| dst_bit)
               else b1.bitboards c p
             occupancy := occ2
             all_occupancy := occ2 0 ||| occ2 1
             mailbox := Function.update (Function.update b1.mailbox from_sq none)
               to_sq (some (color, piece)) }

/-- The representation invariants of `Board` (spec §3, invariants 1-4). -/
def BoardInv (b : PBoard) : Prop :=
  b.all_occupancy = b.occupancy 0 ||| b.occupancy 1 ∧
  b.occupancy 0 &&& b.occupancy 1 = 0 ∧
  (∀ c : Fin 2, b.occupancy c =
    b.bitboards c 0 ||| b.bitboards c 1 ||| b.bitboards c 2 |||
    b.bitboards c 3 ||| b.bitboards c 4 ||| b.bitboards c 5) ∧
  (∀ (s : Fin 64) (c : Fin 2) (p : Fin 6),
    b.mailbox s = some (c, p) ↔ (b.bitboards c p).testBit (s : Nat)) ∧
  (∀ s : Fin 64, b.mailbox s = none ↔ b.all_occupancy.testBit (s : Nat) = false)

theorem natEqOfBits {x y : Nat} (h : ∀ i, x.testBit i = true ↔ y.testBit i = true) :
    x = y :=
  Nat.eq_of_testBit_eq fun i => by
    have hi := h i
    cases hx : x.testBit i <;> cases hy : y.testBit i <;> simp_all

theorem land_eq_zero_bits {x y : Nat} (h : x &&& y = 0) (i : Nat) :
    ¬ (x.testBit i = true ∧ y.testBit i = true) := by
  intro ⟨hx, hy⟩
  have := congrArg (Nat.testBit · i) h
  simp [Nat.testBit_land, hx, hy] at this

/-- `set_piece_at` preserves the board invariants. -/
theorem setPieceAt_inv {b : PBoard} (hb : BoardInv b) (s : Fin 64) (c : Fin 2)
    (p : Fin 6) {b' : PBoard} (h : b.setPieceAt s c p = some b') : BoardInv b' := by
  obtain ⟨h1, h2, h3, h4, h5⟩ := hb
  simp only [PBoard.setPieceAt] at h
  by_cases hempty : b.all_occupancy &&& (1 <<< (s : Nat)) = 0
  swap
  · rw [if_neg hempty] at h
    cases h
  rw [if_pos hempty] at h
  injection h with hR
  have hbbf : b'.bitboards = fun c2 p2 =>
      if c2 = c ∧ p2 = p then b.bitboards c2 p2 ||| (1 <<< (s : Nat))
      else b.bitboards c2 p2 := (congrArg PBoard.bitboards hR).symm
  have hoccf : b'.occupancy = fun c2 =>
      if c2 = c then b.occupancy c2 ||| (1 <<< (s : Nat)) else b.occupancy c2 :=
    (congrArg PBoard.occupancy hR).symm
  have hallf : b'.all_occupancy = b.all_occupancy ||| (1 <<< (s : Nat)) :=
    (congrArg PBoard.all_occupancy hR).symm
  have hmbf : b'.mailbox = Function.update b.mailbox s (some (c, p)) :=
    (congrArg PBoard.mailbox hR).symm
  have hbb' : ∀ (c' : Fin 2) (p' : Fin 6) (i : Nat),
      (b'.bitboards c' p').testBit i =
        ((b.bitboards c' p').testBit i ||
          (decide (c' = c) && decide (p' = p) && decide ((s : Nat) = i))) := by
    intro c' p' i
    rw [hbbf]
    dsimp only
    by_cases hcp : c' = c ∧ p' = p
    · obtain ⟨rfl, rfl⟩ := hcp
      rw [if_pos ⟨rfl, rfl⟩, Nat.testBit_lor, testBit_single]
      simp
    · rw [if_neg hcp]
      have hd : (decide (c' = c) && decide (p' = p)) = false := by
        cases hdc : (decide (c' = c) && decide (p' = p))
        · rfl
        · exfalso
          simp only [Bool.and_eq_true, decide_eq_true_eq] at hdc
          exact hcp hdc
      rw [hd]
      simp
  have hocc' : ∀ (c' : Fin 2) (i : Nat),
      (b'.occupancy c').testBit i =
        ((b.occupancy c').testBit i || (decide (c' = c) && decide ((s : Nat) = i))) := by
    intro c' i
    rw [hoccf]
    dsimp only
    by_cases hc : c' = c
    · subst hc
      rw [if_pos rfl, Nat.testBit_lor, testBit_single]
      simp
    · rw [if_neg hc]
      simp [hc]
  have hall' : ∀ i : Nat,
      b'.all_occupancy.testBit i =
        (b.all_occupancy.testBit i || decide ((s : Nat) = i)) := by
    intro i
    rw [hallf, Nat.testBit_lor, testBit_single]
  have hmb' : ∀ s' : Fin 64,
      b'.mailbox s' = if s' = s then some (c, p) else b.mailbox s' := by
    intro s'
    rw [hmbf]
    by_cases hs : s' = s
    · subst hs
      simp [Function.update_same]
    · simp [Function.update_noteq hs, hs]
  have hallb : ∀ i, b.all_occupancy.testBit i =
      ((b.occupancy 0).testBit i || (b.occupancy 1).testBit i) := by
    intro i
    rw [h1, Nat.testBit_lor]
  have hsfree : b.all_occupancy.testBit (s : Nat) = false := by
    have := congrArg (Nat.testBit · (s : Nat)) hempty
    simp only [Nat.testBit_land, Nat.zero_testBit, testBit_single, decide_True,
      Bool.and_true] at this
    exact this
  have hoccb : ∀ (c' : Fin 2) i, (b.occupancy c').testBit i =
      ((b.bitboards c' 0).testBit i || (b.bitboards c' 1).testBit i ||
       (b.bitboards c' 2).testBit i || (b.bitboards c' 3).testBit i ||
       (b.bitboards c' 4).testBit i || (b.bitboards c' 5).testBit i) := by
    intro c' i
    rw [h3 c']
    simp [Nat.testBit_lor]
  have hbbfree : ∀ (c' : Fin 2) (p' : Fin 6),
      (b.bitboards c' p').testBit (s : Nat) = false := by
    intro c' p'
    cases hset : (b.bitboards c' p').testBit (s : Nat)
    · rfl
    · exfalso
      have hocc : (b.occupancy c').testBit (s : Nat) = true := by
        rw [hoccb c' (s : Nat)]
        simp only [Bool.or_eq_true]
        rcases p' with ⟨pv, hpv⟩
        interval_cases pv
        · exact Or.inl (Or.inl (Or.inl (Or.inl (Or.inl hset))))
        · exact Or.inl (Or.inl (Or.inl (Or.inl (Or.inr hset))))
        · exact Or.inl (Or.inl (Or.inl (Or.inr hset)))
        · exact Or.inl (Or.inl (Or.inr hset))
        · exact Or.inl (Or.inr hset)
        · exact Or.inr hset
      have hall2 : b.all_occupancy.testBit (s : Nat) = true := by
        rw [hallb (s : Nat)]
        simp only [Bool.or_eq_true]
        rcases c' with ⟨cv, hcv⟩
        interval_cases cv
        · exact Or.inl hocc
        · exact Or.inr hocc
      rw [hall2] at hsfree
      cases hsfree
  refine ⟨?_, ?_, ?_, ?_, ?_⟩
  · apply natEqOfBits
    intro i
    rw [hall' i, Nat.testBit_lor, hocc' 0 i, hocc' 1 i, hallb i]
    by_cases hi : (s : Nat) = i
    · simp only [hi, decide_True, Bool.and_true, Bool.or_true]
      fin_cases c <;> simp
    · simp [hi]
  · apply Nat.eq_of_testBit_eq
    intro i
    rw [Nat.testBit_land, hocc' 0 i, hocc' 1 i, Nat.zero_testBit]
    have hd := land_eq_zero_bits h2 i
    by_cases hi : (s : Nat) = i
    · subst hi
      have h0f : (b.occupancy 0).testBit (s : Nat) = false := by
        have hx := hallb (s : Nat)
        rw [hsfree] at hx
        cases hy : (b.occupancy 0).testBit (s : Nat)
        · rfl
        · rw [hy] at hx
          simp at hx
      have h1f : (b.occupancy 1).testBit (s : Nat) = false := by
        have hx := hallb (s : Nat)
        rw [hsfree] at hx
        cases hy : (b.occupancy 1).testBit (s : Nat)
        · rfl
        · rw [hy] at hx
          simp at hx
      rw [h0f, h1f]
      fin_cases c <;> simp
    · simp only [hi, decide_False, Bool.and_false, Bool.or_false]
      cases hx : (b.occupancy 0).testBit i
      · simp
      · cases hy : (b.occupancy 1).testBit i
        · simp
        · exact absurd ⟨hx, hy⟩ hd
  · intro c'
    apply natEqOfBits
    intro i
    rw [hocc' c' i]
    simp only [Nat.testBit_lor]
    rw [hbb' c' 0 i, hbb' c' 1 i, hbb' c' 2 i, hbb' c' 3 i, hbb' c' 4 i, hbb' c' 5 i,
      hoccb c' i]
    by_cases hc : c' = c
    · subst hc
      by_cases hi : (s : Nat) = i
      · simp only [hi, decide_True, Bool.and_true, Bool.true_and, Bool.or_true]
        fin_cases p <;> simp
      · simp [hi]
    · simp [hc]
  · intro s' c' p'
    rw [hmb' s']
    by_cases hs : s' = s
    · subst hs
      rw [if_pos rfl]
      by_cases hcp : c' = c ∧ p' = p
      · obtain ⟨rfl, rfl⟩ := hcp
        rw [hbb' c' p' (s' : Nat)]
        simp
      · rw [hbb' c' p' (s' : Nat), hbbfree c' p']
        constructor
        · intro he
          injection he with he
          exact absurd ⟨(congrArg Prod.fst he).symm, (congrArg Prod.snd he).symm⟩ hcp
        · intro hbit
          simp only [Bool.false_or, Bool.and_eq_true, decide_eq_true_eq] at hbit
          exact absurd ⟨hbit.1.1, hbit.1.2⟩ hcp
    · rw [if_neg hs, hbb' c' p' (s' : Nat)]
      have hsi : decide ((s : Nat) = (s' : Nat)) = false := by
        simp only [decide_eq_false_iff_not]
        intro hv
        exact hs (Fin.ext hv.symm)
      rw [hsi]
      simp only [Bool.and_false, Bool.or_false]
      exact h4 s' c' p'
  · intro s'
    rw [hmb' s', hall' (s' : Nat)]
    by_cases hs : s' = s
    · subst hs
      simp
    · have hsi : decide ((s : Nat) = (s' : Nat)) = false := by
        simp only [decide_eq_false_iff_not]
        intro hv
        exact hs (Fin.ext hv.symm)
      rw [if_neg hs, hsi]
      simp only [Bool.or_false]
      exact h5 s'

/-- Occupancy membership in terms of the piece bitboards. -/
theorem occE_of_inv {b : PBoard} (h3 : ∀ c : Fin 2, b.occupancy c =
    b.bitboards c 0 ||| b.bitboards c 1 ||| b.bitboards c 2 |||
    b.bitboards c 3 ||| b.bitboards c 4 ||| b.bitboards c 5)
    (c' : Fin 2) (i : Nat) :
    (b.occupancy c').testBit i = true ↔ ∃ p', (b.bitboards c' p').testBit i = true := by
  rw [h3 c']
  simp only [Nat.testBit_lor, Bool.or_eq_true]
  constructor
  · rintro (((((h | h) | h) | h) | h) | h)
    exacts [⟨0, h⟩, ⟨1, h⟩, ⟨2, h⟩, ⟨3, h⟩, ⟨4, h⟩, ⟨5, h⟩]
  · rintro ⟨⟨pv, hpv⟩, hp⟩
    interval_cases pv
    · exact Or.inl (Or.inl (Or.inl (Or.inl (Or.inl hp))))
    · exact Or.inl (Or.inl (Or.inl (Or.inl (Or.inr hp))))
    · exact Or.inl (Or.inl (Or.inl (Or.inr hp)))
    · exact Or.inl (Or.inl (Or.inr hp))
    · exact Or.inl (Or.inr hp)
    · exact Or.inr hp

/-- `remove_piece_at` preserves the board invariants. -/
theorem removePieceAt_inv {b : PBoard} (hb : BoardInv b) (s : Fin 64) :
    BoardInv (b.removePieceAt s) := by
  obtain ⟨h1, h2, h3, h4, h5⟩ := hb
  cases hmb : b.mailbox s with
  | none =>
    rw [show b.removePieceAt s = b from by rw [PBoard.removePieceAt, hmb]]
    exact ⟨h1, h2, h3, h4, h5⟩
  | some cp =>
    obtain ⟨c, p⟩ := cp
    have hR : b.removePieceAt s =
        { bitboards := fun c2 p2 =>
            if c2 = c ∧ p2 = p then clearBit (b.bitboards c2 p2) (1 <<< (s : Nat))
            else b.bitboards c2 p2
          occupancy := fun c2 =>
            if c2 = c then clearBit (b.occupancy c2) (1 <<< (s : Nat))
            else b.occupancy c2
          all_occupancy := clearBit b.all_occupancy (1 <<< (s : Nat))
          mailbox := Function.update b.mailbox s none } := by
      rw [PBoard.removePieceAt, hmb]
    have hallb : ∀ i, b.all_occupancy.testBit i =
        ((b.occupancy 0).testBit i || (b.occupancy 1).testBit i) := by
      intro i
      rw [h1, Nat.testBit_lor]
    have hoccE := occE_of_inv h3
    have hbit : (b.bitboards c p).testBit (s : Nat) = true := (h4 s c p).mp hmb
    have huniq : ∀ (c' : Fin 2) (p' : Fin 6), ¬ (c' = c ∧ p' = p) →
        (b.bitboards c' p').testBit (s : Nat) = false := by
      intro c' p' hne
      cases hset : (b.bitboards c' p').testBit (s : Nat)
      · rfl
      · exfalso
        have := (h4 s c' p').mpr hset
        rw [hmb] at this
        injection this with this
        exact hne ⟨(congrArg Prod.fst this).symm, (congrArg Prod.snd this).symm⟩
    have hoccs : ∀ c' : Fin 2, (b.occupancy c').testBit (s : Nat) = decide (c' = c) := by
      intro c'
      by_cases hc : c' = c
      · subst hc
        rw [(hoccE c' (s : Nat)).mpr ⟨p, hbit⟩]
        simp
      · cases hx : (b.occupancy c').testBit (s : Nat)
        · simp [hc]
        · exfalso
          obtain ⟨p', hp'⟩ := (hoccE c' (s : Nat)).mp hx
          have := huniq c' p' (fun hcp => hc hcp.1)
          rw [this] at hp'
          cases hp'
    have hbb' : ∀ (c' : Fin 2) (p' : Fin 6) (i : Nat),
        ((b.removePieceAt s).bitboards c' p').testBit i =
          ((b.bitboards c' p').testBit i &&
            !(decide (c' = c) && decide (p' = p) && decide ((s : Nat) = i))) := by
      intro c' p' i
      rw [hR]
      dsimp only
      by_cases hcp : c' = c ∧ p' = p
      · obtain ⟨rfl, rfl⟩ := hcp
        rw [if_pos ⟨rfl, rfl⟩, testBit_clearBit, testBit_single]
        simp
      · rw [if_neg hcp]
        have hd : (decide (c' = c) && decide (p' = p)) = false := by
          cases hdc : (decide (c' = c) && decide (p' = p))
          · rfl
          · exfalso
            simp only [Bool.and_eq_true, decide_eq_true_eq] at hdc
            exact hcp hdc
        rw [hd]
        simp
    have hocc' : ∀ (c' : Fin 2) (i : Nat),
        ((b.removePieceAt s).occupancy c').testBit i =
          ((b.occupancy c').testBit i && !(decide (c' = c) && decide ((s : Nat) = i))) := by
      intro c' i
      rw [hR]
      dsimp only
      by_cases hc : c' = c
      · subst hc
        rw [if_pos rfl, testBit_clearBit, testBit_single]
        simp
      · rw [if_neg hc]
        simp [hc]
    have hall' : ∀ i : Nat,
        (b.removePieceAt s).all_occupancy.testBit i =
          (b.all_occupancy.testBit i && !(decide ((s : Nat) = i))) := by
      intro i
      rw [hR]
      dsimp only
      rw [testBit_clearBit, testBit_single]
    have hmb' : ∀ s' : Fin 64,
        (b.removePieceAt s).mailbox s' = if s' = s then none else b.mailbox s' := by
      intro s'
      rw [hR]
      dsimp only
      by_cases hs : s' = s
      · subst hs
        simp [Function.update_same]
      · simp [Function.update_noteq hs, hs]
    refine ⟨?_, ?_, ?_, ?_, ?_⟩
    · apply natEqOfBits
      intro i
      rw [hall' i, Nat.testBit_lor, hocc' 0 i, hocc' 1 i, hallb i]
      by_cases hi : (s : Nat) = i
      · subst hi
        rw [hoccs 0, hoccs 1]
        simp only [decide_True, Bool.and_true]
        rcases c with ⟨cv, hcv⟩
        interval_cases cv <;> simp
      · simp [hi]
    · apply Nat.eq_of_testBit_eq
      intro i
      rw [Nat.testBit_land, hocc' 0 i, hocc' 1 i, Nat.zero_testBit]
      have hd := land_eq_zero_bits h2 i
      cases hx : (b.occupancy 0).testBit i
      · simp
      · cases hy : (b.occupancy 1).testBit i
        · simp
        · exact absurd ⟨hx, hy⟩ hd
    · intro c'
      apply natEqOfBits
      intro i
      rw [hocc' c' i]
      simp only [Nat.testBit_lor]
      rw [hbb' c' 0 i, hbb' c' 1 i, hbb' c' 2 i, hbb' c' 3 i, hbb' c' 4 i, hbb' c' 5 i]
      by_cases hi : (s : Nat) = i
      · subst hi
        rw [hoccs c']
        by_cases hc : c' = c
        · subst hc
          simp only [decide_True, Bool.and_true, Bool.true_and, Bool.not_true,
            Bool.and_false, Bool.false_and]
          have h6 : ∀ p' : Fin 6, ((b.bitboards c' p').testBit (s : Nat) &&
              !(decide (p' = p))) = false := by
            intro p'
            by_cases hp : p' = p
            · simp [hp]
            · rw [huniq c' p' (fun hcp => hp hcp.2)]
              simp
          rw [h6 0, h6 1, h6 2, h6 3, h6 4, h6 5]
          simp
        · simp only [hc, decide_False, Bool.false_and, Bool.and_false, Bool.not_false,
            Bool.and_true]
          have h6 : ∀ p' : Fin 6, (b.bitboards c' p').testBit (s : Nat) = false :=
            fun p' => huniq c' p' (fun hcp => hc hcp.1)
          rw [h6 0, h6 1, h6 2, h6 3, h6 4, h6 5]
          simp
      · simp only [hi, decide_False, Bool.and_false, Bool.not_false, Bool.and_true]
        rw [h3 c']
        simp [Nat.testBit_lor]
    · intro s' c' p'
      rw [hmb' s', hbb' c' p' (s' : Nat)]
      by_cases hs : s' = s
      · subst hs
        rw [if_pos rfl]
        constructor
        · intro he
          cases he
        · intro hbit'
          exfalso
          simp only [decide_True, Bool.and_true, Bool.and_eq_true,
            Bool.not_eq_true', Bool.and_eq_false_iff] at hbit'
          by_cases hcp : c' = c ∧ p' = p
          · obtain ⟨rfl, rfl⟩ := hcp
            rcases hbit' with ⟨_, hfalse⟩
            simp at hfalse
          · rw [huniq c' p' hcp] at hbit'
            rcases hbit' with ⟨hfalse, _⟩
            cases hfalse
      · rw [if_neg hs]
        have hsi : decide ((s : Nat) = (s' : Nat)) = false := by
          simp only [decide_eq_false_iff_not]
          intro hv
          exact hs (Fin.ext hv.symm)
        rw [hsi]
        simp only [Bool.and_false, Bool.not_false, Bool.and_true]
        exact h4 s' c' p'
    · intro s'
      rw [hmb' s', hall' (s' : Nat)]
      by_cases hs : s' = s
      · subst hs
        simp
      · have hsi : decide ((s : Nat) = (s' : Nat)) = false := by
          simp only [decide_eq_false_iff_not]
          intro hv
          exact hs (Fin.ext hv.symm)
        rw [if_neg hs, hsi]
        simp only [Bool.not_false, Bool.and_true]
        exact h5 s'

/-- `remove_piece_at` touches the mailbox only at its own square. -/
theorem removePieceAt_mailbox (b : PBoard) (s s' : Fin 64) :
    (b.removePieceAt s).mailbox s' = if s' = s then none else b.mailbox s' := by
  cases hmb : b.mailbox s with
  | none =>
    rw [show b.removePieceAt s = b from by rw [PBoard.removePieceAt, hmb]]
    by_cases hs : s' = s
    · subst hs
      rw [if_pos rfl, hmb]
    · rw [if_neg hs]
  | some cp =>
    obtain ⟨c, p⟩ := cp
    rw [show (b.removePieceAt s).mailbox = Function.update b.mailbox s none from by
      rw [PBoard.removePieceAt, hmb]]
    by_cases hs : s' = s
    · subst hs
      rw [Function.update_same, if_pos rfl]
    · rw [Function.update_noteq hs, if_neg hs]

/-- The XOR piece-move step of `move_piece` preserves the invariants,
given a source piece and an empty destination. -/
theorem moveXor_inv {b1 : PBoard} (hb1 : BoardInv b1) (f t : Fin 64) (color : Fin 2)
    (piece : Fin 6) (hft : f ≠ t)
    (hmf : b1.mailbox f = some (color, piece)) (hmt : b1.mailbox t = none) :
    BoardInv
      { bitboards := fun c2 p2 =>
          if c2 = color ∧ p2 = piece then
            b1.bitboards c2 p2 ^^^ (1 <<< (f : Nat) ||| 1 <<< (t : Nat))
          else b1.bitboards c2 p2
        occupancy := fun c2 =>
          if c2 = color then b1.occupancy c2 ^^^ (1 <<< (f : Nat) ||| 1 <<< (t : Nat))
          else b1.occupancy c2
        all_occupancy :=
          (if (0 : Fin 2) = color then
            b1.occupancy 0 ^^^ (1 <<< (f : Nat) ||| 1 <<< (t : Nat))
          else b1.occupancy 0) |||
          (if (1 : Fin 2) = color then
            b1.occupancy 1 ^^^ (1 <<< (f : Nat) ||| 1 <<< (t : Nat))
          else b1.occupancy 1)
        mailbox := Function.update (Function.update b1.mailbox f none) t
          (some (color, piece)) } := by
  obtain ⟨h1, h2, h3, h4, h5⟩ := hb1
  have hoccE := occE_of_inv h3
  have hftv : (f : Nat) ≠ (t : Nat) := fun hv => hft (Fin.ext hv)
  have hmask : ∀ i : Nat, (1 <<< (f : Nat) ||| 1 <<< (t : Nat)).testBit i =
      (decide ((f : Nat) = i) || decide ((t : Nat) = i)) := by
    intro i
    rw [Nat.testBit_lor, testBit_single, testBit_single]
  have hsrc : (b1.bitboards color piece).testBit (f : Nat) = true := (h4 f color piece).mp hmf
  have huniqf : ∀ (c' : Fin 2) (p' : Fin 6), ¬ (c' = color ∧ p' = piece) →
      (b1.bitboards c' p').testBit (f : Nat) = false := by
    intro c' p' hne
    cases hset : (b1.bitboards c' p').testBit (f : Nat)
    · rfl
    · exfalso
      have := (h4 f c' p').mpr hset
      rw [hmf] at this
      injection this with this
      exact hne ⟨(congrArg Prod.fst this).symm, (congrArg Prod.snd this).symm⟩
  have hdstbb : ∀ (c' : Fin 2) (p' : Fin 6),
      (b1.bitboards c' p').testBit (t : Nat) = false := by
    intro c' p'
    cases hset : (b1.bitboards c' p').testBit (t : Nat)
    · rfl
    · exfalso
      have := (h4 t c' p').mpr hset
      rw [hmt] at this
      cases this
  have hoccsrc : ∀ c' : Fin 2, (b1.occupancy c').testBit (f : Nat) = decide (c' = color) := by
    intro c'
    by_cases hc : c' = color
    · subst hc
      rw [(hoccE c' (f : Nat)).mpr ⟨piece, hsrc⟩]
      simp
    · cases hx : (b1.occupancy c').testBit (f : Nat)
      · simp [hc]
      · exfalso
        obtain ⟨p', hp'⟩ := (hoccE c' (f : Nat)).mp hx
        rw [huniqf c' p' (fun hcp => hc hcp.1)] at hp'
        cases hp'
  have hoccdst : ∀ c' : Fin 2, (b1.occupancy c').testBit (t : Nat) = false := by
    intro c'
    cases hx : (b1.occupancy c').testBit (t : Nat)
    · rfl
    · exfalso
      obtain ⟨p', hp'⟩ := (hoccE c' (t : Nat)).mp hx
      rw [hdstbb c' p'] at hp'
      cases hp'
  have hocc' : ∀ (c' : Fin 2) (i : Nat),
      ((if c' = color then b1.occupancy c' ^^^ (1 <<< (f : Nat) ||| 1 <<< (t : Nat))
        else b1.occupancy c') : Nat).testBit i =
        ((b1.occupancy c').testBit i ^^
          (decide (c' = color) && (decide ((f : Nat) = i) || decide ((t : Nat) = i)))) := by
    intro c' i
    by_cases hc : c' = color
    · subst hc
      rw [if_pos rfl, Nat.testBit_xor, hmask]
      simp
    · rw [if_neg hc]
      simp [hc]
  have hbb' : ∀ (c' : Fin 2) (p' : Fin 6) (i : Nat),
      ((if c' = color ∧ p' = piece then
          b1.bitboards c' p' ^^^ (1 <<< (f : Nat) ||| 1 <<< (t : Nat))
        else b1.bitboards c' p') : Nat).testBit i =
        ((b1.bitboards c' p').testBit i ^^
          (decide (c' = color) && decide (p' = piece) &&
            (decide ((f : Nat) = i) || decide ((t : Nat) = i)))) := by
    intro c' p' i
    by_cases hcp : c' = color ∧ p' = piece
    · obtain ⟨rfl, rfl⟩ := hcp
      rw [if_pos ⟨rfl, rfl⟩, Nat.testBit_xor, hmask]
      simp
    · rw [if_neg hcp]
      have hd : (decide (c' = color) && decide (p' = piece)) = false := by
        cases hdc : (decide (c' = color) && decide (p' = piece))
        · rfl
        · exfalso
          simp only [Bool.and_eq_true, decide_eq_true_eq] at hdc
          exact hcp hdc
      rw [hd]
      simp
  have hoccb : ∀ (c' : Fin 2) (i : Nat), (b1.occupancy c').testBit i =
      ((b1.bitboards c' 0).testBit i || (b1.bitboards c' 1).testBit i ||
       (b1.bitboards c' 2).testBit i || (b1.bitboards c' 3).testBit i ||
       (b1.bitboards c' 4).testBit i || (b1.bitboards c' 5).testBit i) := by
    intro c' i
    rw [h3 c']
    simp [Nat.testBit_lor]
  have hallb : ∀ i, b1.all_occupancy.testBit i =
      ((b1.occupancy 0).testBit i || (b1.occupancy 1).testBit i) := by
    intro i
    rw [h1, Nat.testBit_lor]
  have htf : decide ((t : Nat) = (f : Nat)) = false := by
    simp only [decide_eq_false_iff_not]
    exact fun hv => hftv hv.symm
  have hff : decide ((f : Nat) = (t : Nat)) = false := by
    simp only [decide_eq_false_iff_not]
    exact hftv
  refine ⟨?_, ?_, ?_, ?_, ?_⟩
  · rfl
  · apply Nat.eq_of_testBit_eq
    intro i
    dsimp only
    rw [Nat.testBit_land, Nat.zero_testBit, hocc' 0 i, hocc' 1 i]
    by_cases hif : (f : Nat) = i
    · rw [← hif, hoccsrc 0, hoccsrc 1]
      simp only [decide_True, Bool.true_or, Bool.and_true]
      rcases color with ⟨cv, hcv⟩
      interval_cases cv <;> simp
    · by_cases hit : (t : Nat) = i
      · rw [← hit, hoccdst 0, hoccdst 1]
        rw [show decide ((f : Nat) = (t : Nat)) = false from hff]
        simp only [decide_True, Bool.false_or, Bool.or_true, Bool.and_true,
          Bool.false_xor]
        rcases color with ⟨cv, hcv⟩
        interval_cases cv <;> simp
      · rw [show decide ((f : Nat) = i) = false by simp [hif],
          show decide ((t : Nat) = i) = false by simp [hit]]
        simp only [Bool.or_false, Bool.and_false, Bool.xor_false]
        have hd := land_eq_zero_bits h2 i
        cases hx : (b1.occupancy 0).testBit i
        · simp
        · cases hy : (b1.occupancy 1).testBit i
          · simp
          · exact absurd ⟨hx, hy⟩ hd
  · intro c'
    apply natEqOfBits
    intro i
    dsimp only
    rw [hocc' c' i]
    simp only [Nat.testBit_lor]
    rw [hbb' c' 0 i, hbb' c' 1 i, hbb' c' 2 i, hbb' c' 3 i, hbb' c' 4 i, hbb' c' 5 i]
    by_cases hc : c' = color
    · subst hc
      simp only [decide_True, Bool.true_and]
      by_cases hif : (f : Nat) = i
      · rw [← hif, hoccsrc c']
        simp only [decide_True, Bool.true_or, Bool.and_true]
        have h6 : ∀ p' : Fin 6,
            ((b1.bitboards c' p').testBit (f : Nat) ^^
              (decide (p' = piece) && true)) = false := by
          intro p'
          by_cases hp : p' = piece
          · subst hp
            rw [hsrc]
            simp
          · rw [huniqf c' p' (fun hcp => hp hcp.2)]
            simp [hp]
        simp only [Bool.true_or, Bool.and_true] at h6
        rw [h6 0, h6 1, h6 2, h6 3, h6 4, h6 5]
        simp
      · by_cases hit : (t : Nat) = i
        · rw [← hit, hoccdst c']
          rw [show decide ((f : Nat) = (t : Nat)) = false from hff]
          simp only [Bool.false_or, decide_True, Bool.or_true, Bool.and_true,
            Bool.false_xor]
          have h6 : ∀ p' : Fin 6,
              ((b1.bitboards c' p').testBit (t : Nat) ^^ decide (p' = piece)) =
                decide (p' = piece) := by
            intro p'
            rw [hdstbb c' p']
            simp
          rw [h6 0, h6 1, h6 2, h6 3, h6 4, h6 5]
          rcases piece with ⟨pv, hpv⟩
          interval_cases pv <;> simp
        · rw [show decide ((f : Nat) = i) = false by simp [hif],
            show decide ((t : Nat) = i) = false by simp [hit]]
          simp only [Bool.or_false, Bool.and_false, Bool.xor_false]
          rw [hoccb c' i]
    · simp only [hc, decide_False, Bool.false_and, Bool.xor_false]
      rw [hoccb c' i]
  · intro s' c' p'
    dsimp only
    rw [hbb' c' p' (s' : Nat)]
    by_cases hst : s' = t
    · rw [hst, Function.update_same]
      rw [show decide ((t : Nat) = (t : Nat)) = true by simp]
      rw [show decide ((f : Nat) = (t : Nat)) = false from hff]
      rw [hdstbb c' p']
      simp only [Bool.false_or, Bool.or_true, Bool.and_true, Bool.false_xor]
      constructor
      · intro he
        injection he with he
        have hc : c' = color := (congrArg Prod.fst he).symm
        have hp : p' = piece := (congrArg Prod.snd he).symm
        simp [hc, hp]
      · intro hd
        simp only [Bool.and_eq_true, decide_eq_true_eq] at hd
        rw [hd.1, hd.2]
    · rw [Function.update_noteq hst]
      have hts : decide ((t : Nat) = (s' : Nat)) = false := by
        simp only [decide_eq_false_iff_not]
        intro hv
        exact hst (Fin.ext hv.symm)
      rw [hts]
      by_cases hsf : s' = f
      · rw [hsf] at hts ⊢
        rw [Function.update_same]
        rw [show decide ((f : Nat) = (f : Nat)) = true by simp]
        simp only [Bool.or_false, Bool.and_true]
        constructor
        · intro he
          cases he
        · intro hd
          exfalso
          by_cases hcp : c' = color ∧ p' = piece
          · obtain ⟨rfl, rfl⟩ := hcp
            rw [hsrc] at hd
            simp at hd
          · rw [huniqf c' p' hcp] at hd
            have hdc : (decide (c' = color) && decide (p' = piece)) = false := by
              cases hdcx : (decide (c' = color) && decide (p' = piece))
              · rfl
              · exfalso
                simp only [Bool.and_eq_true, decide_eq_true_eq] at hdcx
                exact hcp hdcx
            rw [hdc] at hd
            cases hd
      · rw [Function.update_noteq hsf]
        have hfs : decide ((f : Nat) = (s' : Nat)) = false := by
          simp only [decide_eq_false_iff_not]
          intro hv
          exact hsf (Fin.ext hv.symm)
        rw [hfs]
        simp only [Bool.or_false, Bool.and_false, Bool.xor_false]
        exact h4 s' c' p'
  · intro s'
    dsimp only
    rw [Nat.testBit_lor, hocc' 0 (s' : Nat), hocc' 1 (s' : Nat)]
    by_cases hst : s' = t
    · rw [hst, Function.update_same]
      rw [show decide ((t : Nat) = (t : Nat)) = true by simp]
      rw [show decide ((f : Nat) = (t : Nat)) = false from hff]
      rw [hoccdst 0, hoccdst 1]
      simp only [Bool.false_or, Bool.or_true, Bool.and_true, Bool.false_xor]
      constructor
      · intro he
        cases he
      · intro hd
        exfalso
        rcases color with ⟨cv, hcv⟩
        interval_cases cv <;> simp at hd
    · rw [Function.update_noteq hst]
      have hts : decide ((t : Nat) = (s' : Nat)) = false := by
        simp only [decide_eq_false_iff_not]
        intro hv
        exact hst (Fin.ext hv.symm)
      rw [hts]
      by_cases hsf : s' = f
      · rw [hsf] at hts ⊢
        rw [Function.update_same]
        rw [show decide ((f : Nat) = (f : Nat)) = true by simp]
        rw [hoccsrc 0, hoccsrc 1]
        simp only [Bool.or_false, Bool.and_true]
        constructor
        · intro _
          rcases color with ⟨cv, hcv⟩
          interval_cases cv <;> simp
        · intro _
          trivial
      · rw [Function.update_noteq hsf]
        have hfs : decide ((f : Nat) = (s' : Nat)) = false := by
          simp only [decide_eq_false_iff_not]
          intro hv
          exact hsf (Fin.ext hv.symm)
        rw [hfs]
        simp only [Bool.or_false, Bool.and_false, Bool.xor_false]
        rw [← Nat.testBit_lor, ← h1]
        exact h5 s'

/-- `move_piece` preserves the board invariants. -/
theorem movePiece_inv {b : PBoard} (hb : BoardInv b) (f t : Fin 64) {b' : PBoard}
    (h : b.movePiece f t = some b') : BoardInv b' := by
  simp only [PBoard.movePiece] at h
  by_cases hft : f = t
  · rw [if_pos hft] at h
    injection h with h
    rw [← h]
    exact hb
  · rw [if_neg hft] at h
    cases hmbf : b.mailbox f with
    | none =>
      rw [hmbf] at h
      cases h
    | some cp =>
      obtain ⟨color, piece⟩ := cp
      rw [hmbf] at h
      injection h with hR
      have hInv1 : BoardInv (if (b.mailbox t).isSome then b.removePieceAt t else b) := by
        split
        · exact removePieceAt_inv hb t
        · exact hb
      have hmf1 : (if (b.mailbox t).isSome then b.removePieceAt t else b).mailbox f =
          some (color, piece) := by
        split
        · rw [removePieceAt_mailbox, if_neg hft]
          exact hmbf
        · exact hmbf
      have hmt1 : (if (b.mailbox t).isSome then b.removePieceAt t else b).mailbox t =
          none := by
        cases hmt : b.mailbox t with
        | none =>
          rw [if_neg (by simp)]
          exact hmt
        | some cp2 =>
          rw [if_pos (by rfl)]
          rw [removePieceAt_mailbox, if_pos rfl]
      rw [← hR]
      exact moveXor_inv hInv1 f t color piece hft hmf1 hmt1

/-- `clear` re-establishes the invariants on the empty state. -/
theorem clear_inv (b : PBoard) : BoardInv (b.clear) := by
  refine ⟨?_, ?_, ?_, ?_, ?_⟩
  · show (0 : Nat) = 0 ||| 0
    simp
  · show (0 : Nat) &&& 0 = 0
    simp
  · intro c
    show (0 : Nat) = 0 ||| 0 ||| 0 ||| 0 ||| 0 ||| 0
    simp
  · intro s c p
    constructor
    · intro he
      cases he
    · intro hbit
      rw [show ((PBoard.clear b).bitboards c p) = 0 from rfl, Nat.zero_testBit] at hbit
      cases hbit
  · intro s
    constructor
    · intro _
      rw [show (PBoard.clear b).all_occupancy = 0 from rfl, Nat.zero_testBit]
    · intro _
      rfl

instance (b : PBoard) : Decidable (BoardInv b) := by
  unfold BoardInv
  infer_instance

/-- C6: every public `Board` operation preserves the representation
invariants: after a successful `set_piece_at`, `remove_piece_at`,
`move_piece`, or `clear` on a board satisfying them, the occupancy
caches, bitboards and mailbox stay mutually consistent. -/
theorem c6_board_operations_preserve_invariants (b : PBoard) (hInv : BoardInv b) :
    (∀ (s : Fin 64) (c : Fin 2) (p : Fin 6) (b' : PBoard),
        b.setPieceAt s c p = some b' → BoardInv b') ∧
    (∀ s : Fin 64, BoardInv (b.removePieceAt s)) ∧
    (∀ (f t : Fin 64) (b' : PBoard), b.movePiece f t = some b' → BoardInv b') ∧
    BoardInv b.clear :=
  ⟨fun s c p _ h => setPieceAt_inv hInv s c p h,
   fun s => removePieceAt_inv hInv s,
   fun f t _ h => movePiece_inv hInv f t h,
   clear_inv b⟩

/-- White king placed on e1 on the empty board. -/
def c6BoardOne : PBoard := (PBoard.empty.setPieceAt 4 0 5).getD PBoard.empty

/-- The king then moved from e1 to e2. -/
def c6BoardTwo : PBoard := (c6BoardOne.movePiece 4 12).getD PBoard.empty

/-- Concrete instantiation of C6 on the empty board: place a white king
on e1, remove it again, move it to e2, and clear. -/
theorem c6_board_operations_preserve_invariants_witness :
    BoardInv c6BoardOne ∧ BoardInv (c6BoardOne.removePieceAt 4) ∧
    BoardInv c6BoardTwo ∧ BoardInv PBoard.empty.clear := by
  have h0 : BoardInv PBoard.empty := by decide
  have h1 : BoardInv c6BoardOne :=
    (c6_board_operations_preserve_invariants PBoard.empty h0).1 4 0 5 c6BoardOne rfl
  refine ⟨h1, ?_, ?_, ?_⟩
  · exact (c6_board_operations_preserve_invariants c6BoardOne h1).2.1 4
  · exact (c6_board_operations_preserve_invariants c6BoardOne h1).2.2.1 4 12
      c6BoardTwo rfl
  · exact (c6_board_operations_preserve_invariants PBoard.empty h0).2.2.2

/-- C10: `remove_piece_at` on an empty square returns normally (it is a
total function here, mirroring the early `return`) and leaves the board
— bitboards, occupancy, all_occupancy and mailbox — unchanged. -/
theorem c10_remove_empty_square_noop (b : PBoard) (s : Fin 64)
    (h : b.mailbox s = none) : b.removePieceAt s = b := by
  rw [PBoard.removePieceAt, h]

/-- Concrete instantiation of C10: removing from empty a8 on the empty
board. -/
theorem c10_remove_empty_square_noop_witness :
    PBoard.empty.removePieceAt 56 = PBoard.empty :=
  c10_remove_empty_square_noop PBoard.empty 56 rfl

/- ------------------------------------------------------------------
C1, C3 and C8: the search, `core/search/alphabeta.py`.

The board is abstracted to the game tree the search walks: each node
carries the fields the searcher reads (bitboards, side to move, clock,
Zobrist key, the in-check flag for the side to move) and its legal
moves paired with the successor boards that `make_move` produces;
`unmake_move` restores the parent node.  The transposition table is
threaded through as an explicit value, the repetition table is passed
down (its push/pop pairs cancel around each child).
------------------------------------------------------------------ -/

/-- Embedding of the `Move` dataclass of `core/moves/move.py`. -/
structure SMove where
  from_sq : Nat
  to_sq : Nat
  piece : Fin 6
  is_capture : Bool
  promotion : Option (Fin 6)
  deriving DecidableEq

mutual
/-- An abstract game node for the search: the board state the searcher
reads, paired with its legal moves and the boards `make_move` produces
for them (`unmake_move` restores the parent, so the traversal is a walk
of this tree). `inCheck` stands for `board.is_in_check(board.side_to_move)`. -/
inductive GBoard : Type where
  | node (bitboards : DrawBB) (sideToMove : Fin 2) (halfmoveClock : Nat)
      (zobristKey : Nat) (inCheck : Bool) (moves : GMoves) : GBoard
/-- The legal-move list of a node, each move with its successor board. -/
inductive GMoves : Type where
  | nil : GMoves
  | cons (mv : SMove) (child : GBoard) (rest : GMoves) : GMoves
end

def GBoard.bitboards : GBoard → DrawBB
  | .node bb _ _ _ _ _ => bb

def GBoard.sideToMove : GBoard → Fin 2
  | .node _ stm _ _ _ _ => stm

def GBoard.halfmoveClock : GBoard → Nat
  | .node _ _ hm _ _ _ => hm

def GBoard.zobristKey : GBoard → Nat
  | .node _ _ _ zk _ _ => zk

def GBoard.inCheck : GBoard → Bool
  | .node _ _ _ _ ic _ => ic

def GBoard.moves : GBoard → GMoves
  | .node _ _ _ _ _ ms => ms

def GMoves.toList : GMoves → List (SMove × GBoard)
  | .nil => []
  | .cons mv child rest => (mv, child) :: rest.toList

/-- `MATERIAL` piece values of `core/search/alphabeta.py`. -/
def MATERIAL : Fin 6 → Int := fun p =>
  if p = 0 then 100 else if p = 1 then 320 else if p = 2 then 330
  else if p = 3 then 500 else if p = 4 then 900 else 20000

def MATE_SCORE : Int := 1000000

def CHECKMATE_PLY_ADJUST : Int := 1000

/-- One `score +=` step of `evaluate_material`: the `if bb:` guard and
the `sign * (MATERIAL[p] * cnt)` term. -/
def pieceTerm (sign : Int) (bb : Nat) (p : Fin 6) : Int :=
  if bb = 0 then 0 else sign * (MATERIAL p * (bitCount bb : Int))

/-- Embedding of `evaluate_material`: white-perspective material count
(color 0 with sign +1, color 1 with sign -1). -/
def evaluate_material (b : DrawBB) : Int :=
  pieceTerm 1 (b.white 0) 0 + pieceTerm 1 (b.white 1) 1 + pieceTerm 1 (b.white 2) 2 +
    pieceTerm 1 (b.white 3) 3 + pieceTerm 1 (b.white 4) 4 + pieceTerm 1 (b.white 5) 5 +
    (pieceTerm (-1) (b.black 0) 0 + pieceTerm (-1) (b.black 1) 1 +
      pieceTerm (-1) (b.black 2) 2 + pieceTerm (-1) (b.black 3) 3 +
      pieceTerm (-1) (b.black 4) 4 + pieceTerm (-1) (b.black 5) 5)

mutual
/-- Embedding of `quiescence`: stand pat on the static evaluation, then
search the capture moves (the Python code filters captures up front and
loops; skipping non-captures in order is the same traversal). -/
def quiescence : GBoard → Int → Int → Int
  | GBoard.node bbs _ _ _ _ moves, alpha, beta =>
    let stand_pat := evaluate_material bbs
    if beta ≤ stand_pat then beta
    else qLoop moves (if alpha < stand_pat then stand_pat else alpha) beta
/-- The capture loop of `quiescence`. -/
def qLoop : GMoves → Int → Int → Int
  | GMoves.nil, alpha, _ => alpha
  | GMoves.cons mv child rest, alpha, beta =>
    if mv.is_capture then
      let score := -quiescence child (-beta) (-alpha)
      if beta ≤ score then beta
      else qLoop rest (if alpha < score then score else alpha) beta
    else qLoop rest alpha beta
end

def c1WhiteBB : Fin 6 → Nat := fun p =>
  if p = 5 then 1 <<< 4 else if p = 4 then 1 <<< 3 else 0

def c1BlackBB : Fin 6 → Nat := fun p => if p = 5 then 1 <<< 60 else 0

/-- White king e1 and queen d1 versus the black king e8; Black to move;
no capture (indeed no) moves. -/
def c1Board : GBoard :=
  GBoard.node ⟨c1WhiteBB, c1BlackBB⟩ 1 0 0 false GMoves.nil

/-- Embedding of `is_fifty_move_rule` from `core/search/draw.py`. -/
def is_fifty_move_rule (b : GBoard) : Bool := 100 ≤ GBoard.halfmoveClock b

/-- TT flags. -/
def EXACT : Nat := 0

def LOWERBOUND : Nat := 1

def UPPERBOUND : Nat := 2

/-- Embedding of `_tt_probe`. -/
def ttProbeVal (tt : Option (TranspositionTable SMove)) (key : Nat) (depth : Int)
    (alpha beta : Int) : Option Int :=
  match tt with
  | none => none
  | some t =>
    match t.probe key with
    | none => none
    | some e =>
      if depth ≤ e.depth then
        if e.flag = EXACT then some e.value
        else if e.flag = LOWERBOUND ∧ beta ≤ e.value then some e.value
        else if e.flag = UPPERBOUND ∧ e.value ≤ alpha then some e.value
        else none
      else none

/-- Embedding of `_tt_store`. -/
def ttStore (tt : Option (TranspositionTable SMove)) (key : Nat) (depth : Int)
    (flag : Nat) (value : Int) (bestMove : Option SMove) :
    Option (TranspositionTable SMove) :=
  match tt with
  | none => none
  | some t => some (t.store key depth flag value bestMove)

/-- The TT move-ordering step: pop the first occurrence of the TT best
move and reinsert it at the front (`legal_moves.insert(0, legal_moves.pop(i))`). -/
def extractFirst (bm : SMove) : List (SMove × GBoard) →
    Option ((SMove × GBoard) × List (SMove × GBoard))
  | [] => none
  | x :: rest =>
    if x.1 = bm then some (x, rest)
    else (extractFirst bm rest).map (fun yr => (yr.1, x :: yr.2))

/-- Move ordering of `negamax` (lines 140-146): try the TT best move first. -/
def ttOrder (tt : Option (TranspositionTable SMove)) (key : Nat)
    (l : List (SMove × GBoard)) : List (SMove × GBoard) :=
  match tt with
  | none => l
  | some t =>
    match t.probe key with
    | none => l
    | some e =>
      match e.bestMove with
      | none => l
      | some bm =>
        match extractFirst bm l with
        | none => l
        | some yr => yr.1 :: yr.2

mutual
/-- Embedding of `negamax`: draw checks, TT probe, quiescence horizon,
mate/stalemate detection, the alpha-beta move loop and the final TT
store. The mutated transposition table is returned next to the score;
the repetition table is passed down (its push/pop pairs around each
child cancel, so the caller's value is unchanged). -/
def negamax (b : GBoard) (depth : Int) (alpha beta : Int)
    (tt : Option (TranspositionTable SMove)) (rep : RepetitionTable) (ply : Nat) :
    Int × Option (TranspositionTable SMove) :=
  if is_fifty_move_rule b then (0, tt)
  else if isInsufficientMaterialSearch (GBoard.bitboards b) then (0, tt)
  else if rep.isThreefold (GBoard.zobristKey b) then (0, tt)
  else
    let key := GBoard.zobristKey b
    match ttProbeVal tt key depth alpha beta with
    | some v => (v, tt)
    | none =>
      if hd : depth ≤ 0 then (quiescence b alpha beta, tt)
      else
        let legal_moves := GMoves.toList (GBoard.moves b)
        if legal_moves.isEmpty then
          (if GBoard.inCheck b then
            -MATE_SCORE + (ply : Int) * CHECKMATE_PLY_ADJUST
          else 0, tt)
        else
          let ordered := ttOrder tt key legal_moves
          let r := negamaxLoop ordered depth (by omega) beta tt rep ply
            (-(10 ^ 9)) none alpha
          let best_value := r.1
          let best_move := r.2.1
          let tt2 := r.2.2
          let flag := if best_value ≤ alpha then UPPERBOUND
            else if beta ≤ best_value then LOWERBOUND
            else EXACT
          (best_value, ttStore tt2 key depth flag best_value best_move)
termination_by (depth.toNat, 1, 0)
decreasing_by
  all_goals simp_wf
  all_goals
    first
      | (apply Prod.Lex.left
         omega)
      | (apply Prod.Lex.right
         first
           | (apply Prod.Lex.left
              omega)
           | (apply Prod.Lex.right
              omega))
/-- The `for mv in legal_moves` loop of `negamax`, threading
`best_value`, `best_move`, `alpha` and the table, with the beta cutoff
as early return. -/
def negamaxLoop (moves : List (SMove × GBoard)) (depth : Int) (hd : 0 < depth)
    (beta : Int) (tt : Option (TranspositionTable SMove)) (rep : RepetitionTable)
    (ply : Nat) (best_value : Int) (best_move : Option SMove) (alpha : Int) :
    Int × Option SMove × Option (TranspositionTable SMove) :=
  match moves with
  | [] => (best_value, best_move, tt)
  | (mv, child) :: rest =>
    let rep1 := rep.push (GBoard.zobristKey child)
    let r := negamax child (depth - 1) (-beta) (-alpha) tt rep1 (ply + 1)
    let score := -r.1
    let tt1 := r.2
    let bv1 := if best_value < score then score else best_value
    let bm1 := if best_value < score then some mv else best_move
    let alpha1 := if alpha < bv1 then bv1 else alpha
    if beta ≤ alpha1 then (bv1, bm1, tt1)
    else negamaxLoop rest depth hd beta tt1 rep ply bv1 bm1 alpha1
termination_by (depth.toNat, 0, moves.length)
decreasing_by
  all_goals simp_wf
  all_goals
    first
      | (apply Prod.Lex.left
         omega)
      | (apply Prod.Lex.right
         first
           | (apply Prod.Lex.left
              omega)
           | (apply Prod.Lex.right
              omega))
end


/-- The manual fallback root loop of `search_root` (used when no TT
entry with a best move exists for the root key). -/
def rootFallback (moves : List (SMove × GBoard)) (depth : Int)
    (rep : RepetitionTable) (tt : Option (TranspositionTable SMove))
    (best_mv : Option SMove) (best_val : Int) :
    Option SMove × Int × Option (TranspositionTable SMove) :=
  match moves with
  | [] => (best_mv, best_val, tt)
  | (mv, child) :: rest =>
    let rep1 := rep.push (GBoard.zobristKey child)
    let r := negamax child (depth - 1) (-MATE_SCORE) MATE_SCORE tt rep1 1
    let val := -r.1
    if best_val < val then rootFallback rest depth rep r.2 (some mv) val
    else rootFallback rest depth rep r.2 best_mv best_val

/-- One iterative-deepening pass per depth in the list, threading
`(best_move, best_score, tt)`. -/
def rootIter (depths : List Nat) (b : GBoard) (rep : RepetitionTable)
    (st : Option SMove × Int × Option (TranspositionTable SMove)) :
    Option SMove × Int × Option (TranspositionTable SMove) :=
  match depths with
  | [] => st
  | depth :: rest =>
    let r := negamax b (depth : Int) (-MATE_SCORE) MATE_SCORE st.2.2 rep 0
    let score := r.1
    let tt1 := r.2
    let entry := match tt1 with
      | none => none
      | some t => t.probe (GBoard.zobristKey b)
    match entry with
    | some e =>
      match e.bestMove with
      | some bm => rootIter rest b rep (some bm, score, tt1)
      | none =>
        let fb := rootFallback (GMoves.toList (GBoard.moves b)) (depth : Int) rep tt1
          none (-(10 ^ 9))
        rootIter rest b rep fb
    | none =>
      let fb := rootFallback (GMoves.toList (GBoard.moves b)) (depth : Int) rep tt1
        none (-(10 ^ 9))
      rootIter rest b rep fb

/-- Embedding of `search_root` with `time_limit=None` (the wall-clock
break never fires): seed the repetition table with the root key, age the
table, and run iterative deepening from depth 1 to `max_depth`. -/
def search_root (b : GBoard) (max_depth : Nat)
    (tt : Option (TranspositionTable SMove)) : Option SMove × Int :=
  let rep := RepetitionTable.empty.push (GBoard.zobristKey b)
  let tt0 := tt.map TranspositionTable.newSearch
  let res := rootIter (List.range' 1 max_depth) b rep (none, -(10 ^ 9), tt0)
  (res.1, res.2.1)

/-- With no legal moves, one negamax call leaves a `None` table `None`
and reaches no TT store. -/
theorem negamax_nil (b : GBoard) (hmoves : GBoard.moves b = GMoves.nil)
    (depth : Int) (alpha beta : Int) (rep : RepetitionTable) (ply : Nat) :
    (negamax b depth alpha beta none rep ply).2 = none := by
  rw [negamax]
  split
  · rfl
  · split
    · rfl
    · split
      · rfl
      · simp only [ttProbeVal]
        split
        · rfl
        · rw [hmoves]
          simp only [GMoves.toList, List.isEmpty_nil, if_true]

/-- A board with no legal moves drives `search_root` (with no TT)
through the empty fallback loop at every depth, leaving the initial
sentinel result untouched. -/
theorem searchRoot_no_moves (b : GBoard) (hmoves : GBoard.moves b = GMoves.nil)
    (max_depth : Nat) : search_root b max_depth none = (none, -(10 ^ 9)) := by
  have hiter : ∀ (depths : List Nat) (rep : RepetitionTable),
      rootIter depths b rep (none, -(10 ^ 9), none) = (none, -(10 ^ 9), none) := by
    intro depths
    induction depths with
    | nil =>
      intro rep
      rfl
    | cons d rest ih =>
      intro rep
      rw [rootIter]
      have h2 : (negamax b (d : Int) (-MATE_SCORE) MATE_SCORE
          (((none : Option SMove), (-(10 ^ 9) : Int),
            (none : Option (TranspositionTable SMove)))).2.2 rep 0).2 =
          none := negamax_nil b hmoves _ _ _ _ _
      simp only at h2
      simp only [h2, hmoves, GMoves.toList, rootFallback]
      exact ih rep
  simp only [search_root, Option.map_none']
  rw [hiter]

def c3WhiteBB : Fin 6 → Nat := fun p =>
  if p = 5 then 1 <<< 4 else if p = 4 then 1 <<< 3 else 0

def c3BlackBB : Fin 6 → Nat := fun p =>
  if p = 5 then 1 <<< 60 else if p = 4 then 1 <<< 59 else 0

/-- A root position with no legal moves (kings and queens on the board,
so no draw rule fires; side to move not in check — a stalemate shape). -/
def c3Board : GBoard := GBoard.node ⟨c3WhiteBB, c3BlackBB⟩ 0 0 5 false GMoves.nil

/-- C3 counterexample: on a concrete no-legal-move root,
`search_root(board, 1, None, None)` returns `(None, -10**9)`, not the
claimed `(None, 0)`. -/
theorem c3_search_root_counterexample :
    ¬ (search_root c3Board 1 none = ((none : Option SMove), (0 : Int))) := by
  rw [searchRoot_no_moves c3Board rfl 1]
  decide

/-- C3 amended: when `generate_legal_moves` returns the empty list at
the root, `search_root(board, max_depth, None, None)` returns
`(None, -10**9)` — best move and score keep their initialisation
sentinels, because the per-depth fallback loop runs over no moves. -/
theorem c3_search_root_amended (b : GBoard) (hmoves : GBoard.moves b = GMoves.nil)
    (max_depth : Nat) : search_root b max_depth none = (none, -(10 ^ 9)) :=
  searchRoot_no_moves b hmoves max_depth

/-- Concrete instantiation of the amended C3 on the stalemate root. -/
theorem c3_search_root_amended_witness :
    search_root c3Board 1 none = (none, -(10 ^ 9)) :=
  c3_search_root_amended c3Board rfl 1

/-- C8: when negamax reaches move generation (no draw rule fired, no TT
cutoff, positive depth) and there are no legal moves, it returns the
mate score `-MATE_SCORE + ply*CHECKMATE_PLY_ADJUST` if the side to move
is in check and 0 otherwise, leaving the table untouched. -/
theorem c8_negamax_mate_and_stalemate (b : GBoard) (depth : Int)
    (alpha beta : Int) (tt : Option (TranspositionTable SMove))
    (rep : RepetitionTable) (ply : Nat)
    (h50 : is_fifty_move_rule b = false)
    (hins : isInsufficientMaterialSearch (GBoard.bitboards b) = false)
    (hrep : rep.isThreefold (GBoard.zobristKey b) = false)
    (htt : ttProbeVal tt (GBoard.zobristKey b) depth alpha beta = none)
    (hd : 0 < depth)
    (hmoves : GBoard.moves b = GMoves.nil) :
    negamax b depth alpha beta tt rep ply =
      (if GBoard.inCheck b then -MATE_SCORE + (ply : Int) * CHECKMATE_PLY_ADJUST
       else 0, tt) := by
  rw [negamax]
  simp only [h50, hins, hrep, htt, hmoves, GMoves.toList, Bool.false_eq_true,
    if_false, List.isEmpty_nil, if_true]
  rw [dif_neg (by omega : ¬ depth ≤ 0)]

def c8WhiteBB : Fin 6 → Nat := fun p => if p = 5 then 1 <<< 4 else 0

def c8BlackBB : Fin 6 → Nat := fun p =>
  if p = 5 then 1 <<< 60 else if p = 4 then 1 <<< 12 else 0

/-- A checkmated root: white king in check from the black queen, no
legal moves. -/
def c8Board : GBoard := GBoard.node ⟨c8WhiteBB, c8BlackBB⟩ 0 0 9 true GMoves.nil

/-- Concrete instantiation of C8 on the checkmate node at ply 0. -/
theorem c8_negamax_mate_and_stalemate_witness :
    negamax c8Board 1 (-MATE_SCORE) MATE_SCORE none RepetitionTable.empty 0 =
      (-1000000, none) := by
  have h := c8_negamax_mate_and_stalemate c8Board 1 (-MATE_SCORE) MATE_SCORE none
    RepetitionTable.empty 0 (by decide) (by decide) (by decide) rfl (by decide) rfl
  rw [h]
  norm_num [GBoard.inCheck, c8Board, MATE_SCORE]

/-- Modelled from the spec: "Score = white_material − black_material
from white's perspective; negamax handles side flipping by returning
from side-to-move's perspective" — the static evaluation as the side to
move should report it. -/
def evalFromSideToMove (b : GBoard) : Int :=
  if GBoard.sideToMove b = 0 then evaluate_material (GBoard.bitboards b)
  else -(evaluate_material (GBoard.bitboards b))

/-- C1: on the board with white king e1 and queen d1 versus black king
e8, Black to move with no capture moves, quiescence stands pat on the
white-perspective `evaluate_material` and returns +900 inside the open
window, while the side-to-move perspective the claim (and the spec's
negamax sign convention) requires is −900. -/
theorem c1_quiescence_stand_pat_white_perspective :
    GBoard.sideToMove c1Board = 1 ∧
    GBoard.moves c1Board = GMoves.nil ∧
    quiescence c1Board (-MATE_SCORE) MATE_SCORE = 900 ∧
    evalFromSideToMove c1Board = -900 := by
  refine ⟨rfl, rfl, ?_, ?_⟩ <;> decide

/-! ### C5 — magic bitboard attack tables (`core/moves/magic_bitboards.py`)

The magic constants themselves live in `magics_autogen.py`; here the
magic number is a parameter, and correctness is proved for every magic
whose table build succeeds (the code raises `RuntimeError` otherwise).
-/

def U64 : Nat := 0xFFFFFFFFFFFFFFFF

/-- `SQUARE_TO_FILE[sq] = sq & 7`. -/
def fileOf (sq : Nat) : Nat := sq &&& 7

/-- `SQUARE_TO_RANK[sq] = sq >> 3`. -/
def rankOf (sq : Nat) : Nat := sq >>> 3

/-- One directional scan of the ray-walk reference: add each square,
stop after the first blocker (`attacks |= bit; if occ & bit: break`). -/
def walkRay (occ : Nat) : List Nat → Nat
  | [] => 0
  | s :: rest =>
    (1 <<< s) ||| (if occ &&& (1 <<< s) ≠ 0 then 0 else walkRay occ rest)

/-- OR together the single-square bits of a list of squares (the mask
accumulation loops). -/
def orBits : List Nat → Nat
  | [] => 0
  | s :: rest => (1 <<< s) ||| orBits rest

/-- The squares `range(r+1, hi)` visits on the north ray. -/
def rayNorthTo (hi : Nat) (sq : Nat) : List Nat :=
  (List.range' (rankOf sq + 1) (hi - (rankOf sq + 1))).map (fun rr => rr * 8 + fileOf sq)

/-- The squares `range(r-1, lo-1, -1)` visits on the south ray. -/
def raySouthTo (lo : Nat) (sq : Nat) : List Nat :=
  ((List.range' lo (rankOf sq - lo)).reverse).map (fun rr => rr * 8 + fileOf sq)

/-- The squares `range(f+1, hi)` visits on the east ray. -/
def rayEastTo (hi : Nat) (sq : Nat) : List Nat :=
  (List.range' (fileOf sq + 1) (hi - (fileOf sq + 1))).map (fun ff => rankOf sq * 8 + ff)

/-- The squares `range(f-1, lo-1, -1)` visits on the west ray. -/
def rayWestTo (lo : Nat) (sq : Nat) : List Nat :=
  ((List.range' lo (fileOf sq - lo)).reverse).map (fun ff => rankOf sq * 8 + ff)

/-- Embedding of `mask_rook_attacks`: the four edge-excluding loops
(`range(r+1,7)`, `range(r-1,0,-1)`, `range(f+1,7)`, `range(f-1,0,-1)`)
OR-ed into one mask, truncated by `_u64`. -/
def mask_rook_attacks (sq : Nat) : Nat :=
  (orBits (rayNorthTo 7 sq) ||| orBits (raySouthTo 1 sq) |||
    orBits (rayEastTo 7 sq) ||| orBits (rayWestTo 1 sq)) &&& U64

/-- Embedding of `_rook_attacks_from_occupancy`: the four blocker-aware
scans over the full rays (`range(r+1,8)` etc.), truncated by `_u64`. -/
def _rook_attacks_from_occupancy (sq : Nat) (occ : Nat) : Nat :=
  (walkRay occ (rayNorthTo 8 sq) ||| walkRay occ (raySouthTo 0 sq) |||
    walkRay occ (rayEastTo 8 sq) ||| walkRay occ (rayWestTo 0 sq)) &&& U64

/-- The diagonal squares `(f+i, r+i)` for `i = 1..n` (north-east). -/
def rayNE (n : Nat) (sq : Nat) : List Nat :=
  (List.range' 1 n).map (fun i => (rankOf sq + i) * 8 + (fileOf sq + i))

/-- The diagonal squares `(f-i, r-i)` for `i = 1..n` (south-west). -/
def raySW (n : Nat) (sq : Nat) : List Nat :=
  (List.range' 1 n).map (fun i => (rankOf sq - i) * 8 + (fileOf sq - i))

/-- The diagonal squares `(f-i, r+i)` for `i = 1..n` (north-west). -/
def rayNW (n : Nat) (sq : Nat) : List Nat :=
  (List.range' 1 n).map (fun i => (rankOf sq + i) * 8 + (fileOf sq - i))

/-- The diagonal squares `(f+i, r-i)` for `i = 1..n` (south-east). -/
def raySE (n : Nat) (sq : Nat) : List Nat :=
  (List.range' 1 n).map (fun i => (rankOf sq - i) * 8 + (fileOf sq + i))

/-- Embedding of `mask_bishop_attacks`: the four `while`-loops bounded
by files/ranks 1..6. -/
def mask_bishop_attacks (sq : Nat) : Nat :=
  (orBits (rayNE (min (6 - fileOf sq) (6 - rankOf sq)) sq) |||
    orBits (raySW (min (fileOf sq - 1) (rankOf sq - 1)) sq) |||
    orBits (rayNW (min (fileOf sq - 1) (6 - rankOf sq)) sq) |||
    orBits (raySE (min (6 - fileOf sq) (rankOf sq - 1)) sq)) &&& U64

/-- Embedding of `_bishop_attacks_from_occupancy`: the four
blocker-aware `while`-loops bounded by the board edge. -/
def _bishop_attacks_from_occupancy (sq : Nat) (occ : Nat) : Nat :=
  (walkRay occ (rayNE (min (7 - fileOf sq) (7 - rankOf sq)) sq) |||
    walkRay occ (raySW (min (fileOf sq) (rankOf sq)) sq) |||
    walkRay occ (rayNW (min (fileOf sq) (7 - rankOf sq)) sq) |||
    walkRay occ (raySE (min (7 - fileOf sq) (rankOf sq)) sq)) &&& U64

/-- One LSB-extraction step list, with the number itself as structural
fuel: `lsb = m & -m; pos = lsb.bit_length()-1; m &= m-1`. The lowest
set bit `m & -m` of a positive int equals `m ^ (m & (m-1))`. -/
def maskBitsAux : Nat → Nat → List Nat
  | 0, _ => []
  | fuel + 1, m =>
    if m = 0 then []
    else (bitLength (m ^^^ (m &&& (m - 1))) - 1) :: maskBitsAux fuel (m &&& (m - 1))

/-- Embedding of `mask_bits_positions`. -/
def mask_bits_positions (m : Nat) : List Nat := maskBitsAux m m

/-- Embedding of `index_to_occupancy`: bit `i` of `index` switches on
the square `positions[i]` (the recursion halves `index` instead of
shifting by `i`). -/
def index_to_occupancy : Nat → List Nat → Nat
  | _, [] => 0
  | index, p :: ps =>
    (if index % 2 = 1 then 1 <<< p else 0) ||| index_to_occupancy (index / 2) ps

/-- The inverse enumeration: the index whose `index_to_occupancy` image
is a given sub-occupancy of the mask. -/
def occupancy_to_index (u : Nat) : List Nat → Nat
  | [] => 0
  | p :: ps => (if u.testBit p then 1 else 0) + 2 * occupancy_to_index u ps

/-- One iteration of the `_build_attack_table_for_square` loop:
compute the reference attack of the sub-occupancy, hash it, and fill or
check the slot (`None` models the collision `RuntimeError`). -/
def buildStep (sq : Nat) (is_rook : Bool) (mask magic shift : Nat)
    (positions : List Nat) (table : List (Option Nat)) (idx : Nat) :
    Option (List (Option Nat)) :=
  let occ := index_to_occupancy idx positions
  let att := if is_rook then _rook_attacks_from_occupancy sq occ
             else _bishop_attacks_from_occupancy sq occ
  let compressed := (((occ &&& mask) * magic) &&& U64) >>> shift
  match table.get? compressed with
  | none => none
  | some none => some (table.set compressed (some att))
  | some (some existing) => if existing = att then some table else none

/-- Embedding of `_build_attack_table_for_square`: run the loop over
all `2^popcount(mask)` sub-occupancies starting from the `[None]*size`
table, then replace the unreached `None` slots by 0. -/
def _build_attack_table_for_square (sq : Nat) (mask : Nat) (positions : List Nat)
    (is_rook : Bool) (magic : Nat) (shift : Nat) : Option (List Nat) :=
  let size := 1 <<< bitCount mask
  ((List.range size).foldlM (buildStep sq is_rook mask magic shift positions)
      (List.replicate size (none : Option Nat))).map
    (fun t => t.map (fun v => v.getD 0))

/-- The compressed-index lookup of `rook_attacks`/`bishop_attacks` in a
per-square attack table (`_ROOK_ATT_TABLE[offset[sq] + compressed]`
reads the square's own slice, which is this table). -/
def tableLookup (table : List Nat) (mask magic shift occ : Nat) : Nat :=
  table.getD ((((occ &&& mask) * magic) &&& U64) >>> shift) 0

/-- Embedding of `rook_attacks` for one square: lazy `init()` builds the
masks, shifts and table for `sq` from its magic (failing on a
collision), then the hot-path lookup runs; `none` models an `init`
failure. -/
def rook_attacks (magic : Nat) (sq occ : Nat) : Option Nat :=
  let mask := mask_rook_attacks sq
  let shift := 64 - bitCount mask
  (_build_attack_table_for_square sq mask (mask_bits_positions mask) true magic
      shift).map
    (fun table => tableLookup table mask magic shift occ)

/-- Embedding of `bishop_attacks` for one square, as for `rook_attacks`. -/
def bishop_attacks (magic : Nat) (sq occ : Nat) : Option Nat :=
  let mask := mask_bishop_attacks sq
  let shift := 64 - bitCount mask
  (_build_attack_table_for_square sq mask (mask_bits_positions mask) false magic
      shift).map
    (fun table => tableLookup table mask magic shift occ)

theorem testBit_two_mul (x i : Nat) : (2 * x).testBit (i + 1) = x.testBit i := by
  rw [Nat.testBit_succ]
  congr 1
  omega

theorem testBit_two_mul_zero (x : Nat) : (2 * x).testBit 0 = false := by
  rw [Nat.testBit_zero]
  simp [Nat.mul_mod_right]

theorem testBit_two_mul_add_one (x i : Nat) :
    (2 * x + 1).testBit (i + 1) = x.testBit i := by
  rw [Nat.testBit_succ]
  congr 1
  omega

theorem testBit_two_mul_add_one_zero (x : Nat) : (2 * x + 1).testBit 0 = true := by
  rw [Nat.testBit_zero]
  simp [Nat.add_mul_mod_self_left]
  omega

theorem land_two_mul (a b : Nat) : (2 * a) &&& (2 * b) = 2 * (a &&& b) := by
  apply Nat.eq_of_testBit_eq
  intro i
  cases i with
  | zero =>
    simp [Nat.testBit_land, testBit_two_mul_zero]
  | succ i =>
    rw [Nat.testBit_land, testBit_two_mul, testBit_two_mul, testBit_two_mul,
      Nat.testBit_land]

theorem land_two_mul_add_one (a b : Nat) :
    (2 * a + 1) &&& (2 * b) = 2 * (a &&& b) := by
  apply Nat.eq_of_testBit_eq
  intro i
  cases i with
  | zero =>
    simp [Nat.testBit_land, testBit_two_mul_add_one_zero, testBit_two_mul_zero]
  | succ i =>
    rw [Nat.testBit_land, testBit_two_mul_add_one, testBit_two_mul, testBit_two_mul,
      Nat.testBit_land]

theorem land_two_mul_odd (a b : Nat) :
    (2 * a) &&& (2 * b + 1) = 2 * (a &&& b) := by
  apply Nat.eq_of_testBit_eq
  intro i
  cases i with
  | zero =>
    simp [Nat.testBit_land, testBit_two_mul_zero]
  | succ i =>
    rw [Nat.testBit_land, testBit_two_mul, testBit_two_mul_add_one, testBit_two_mul,
      Nat.testBit_land]

theorem xor_two_mul (a b : Nat) : (2 * a) ^^^ (2 * b) = 2 * (a ^^^ b) := by
  apply Nat.eq_of_testBit_eq
  intro i
  cases i with
  | zero =>
    simp [Nat.testBit_xor, testBit_two_mul_zero]
  | succ i =>
    rw [Nat.testBit_xor, testBit_two_mul, testBit_two_mul, testBit_two_mul,
      Nat.testBit_xor]

theorem xor_two_mul_add_one (a b : Nat) :
    (2 * a + 1) ^^^ (2 * b) = 2 * (a ^^^ b) + 1 := by
  apply Nat.eq_of_testBit_eq
  intro i
  cases i with
  | zero =>
    rw [Nat.testBit_xor, testBit_two_mul_add_one_zero, testBit_two_mul_zero,
      testBit_two_mul_add_one_zero]
    rfl
  | succ i =>
    rw [Nat.testBit_xor, testBit_two_mul_add_one, testBit_two_mul,
      testBit_two_mul_add_one, Nat.testBit_xor]

theorem land_pred_lt (m : Nat) (h : m ≠ 0) : m &&& (m - 1) < m :=
  lt_of_le_of_lt Nat.and_le_right (by omega)

theorem maskBitsAux_congr : ∀ {fuel fuel' n : Nat}, n ≤ fuel → n ≤ fuel' →
    maskBitsAux fuel n = maskBitsAux fuel' n := by
  intro fuel
  induction fuel with
  | zero =>
    intro fuel' n h _
    have : n = 0 := Nat.le_zero.mp h
    subst this
    cases fuel' <;> simp [maskBitsAux]
  | succ fuel ih =>
    intro fuel' n h h'
    cases fuel' with
    | zero =>
      have : n = 0 := Nat.le_zero.mp h'
      subst this
      simp [maskBitsAux]
    | succ fuel' =>
      by_cases hn : n = 0
      · subst hn; simp [maskBitsAux]
      · simp only [maskBitsAux, hn, if_false]
        have hlt := land_pred_lt n hn
        have h2 : n &&& (n - 1) ≤ fuel := by omega
        have h2' : n &&& (n - 1) ≤ fuel' := by omega
        rw [ih h2 h2']

theorem bitLength_two_mul (x : Nat) (h : x ≠ 0) :
    bitLength (2 * x) = bitLength x + 1 := by
  rw [bitLength_rec (2 * x) (by omega)]
  congr 2
  omega

theorem bitLength_pos (x : Nat) (h : x ≠ 0) : 0 < bitLength x := by
  rw [bitLength_rec x h]
  omega

theorem maskBitsAux_even : ∀ (j : Nat) {fuel fuel' : Nat}, j ≤ fuel → 2 * j ≤ fuel' →
    maskBitsAux fuel' (2 * j) = (maskBitsAux fuel j).map (· + 1) := by
  intro j
  induction j using Nat.strong_induction_on with
  | _ j ih =>
    intro fuel fuel' hf hf'
    by_cases hj : j = 0
    · subst hj
      cases fuel <;> cases fuel' <;> simp [maskBitsAux]
    · have h2j : 2 * j ≠ 0 := by omega
      obtain ⟨fuel0, rfl⟩ : ∃ k, fuel = k + 1 := ⟨fuel - 1, by omega⟩
      obtain ⟨fuel0', rfl⟩ : ∃ k, fuel' = k + 1 := ⟨fuel' - 1, by omega⟩
      have hpred : 2 * j - 1 = 2 * (j - 1) + 1 := by omega
      have hland : (2 * j) &&& (2 * j - 1) = 2 * (j &&& (j - 1)) := by
        rw [hpred, land_two_mul_odd]
      have hxor : (2 * j) ^^^ ((2 * j) &&& (2 * j - 1)) =
          2 * (j ^^^ (j &&& (j - 1))) := by
        rw [hland, xor_two_mul]
      have hlsb : j ^^^ (j &&& (j - 1)) ≠ 0 := by
        intro hx
        have := Nat.xor_eq_zero.mp hx
        have := land_pred_lt j hj
        omega
      have hhead : bitLength ((2 * j) ^^^ ((2 * j) &&& (2 * j - 1))) - 1 =
          (bitLength (j ^^^ (j &&& (j - 1))) - 1) + 1 := by
        rw [hxor, bitLength_two_mul _ hlsb]
        have := bitLength_pos _ hlsb
        omega
      simp only [maskBitsAux, h2j, hj, if_false, List.map_cons]
      rw [hhead, hland]
      congr 1
      have hlt := land_pred_lt j hj
      exact ih (j &&& (j - 1)) hlt (by omega) (by omega)

theorem maskBitsAux_odd (j : Nat) {fuel : Nat} (h : 2 * j ≤ fuel) :
    maskBitsAux (fuel + 1) (2 * j + 1) = 0 :: maskBitsAux fuel (2 * j) := by
  have hland : (2 * j + 1) &&& (2 * j + 1 - 1) = 2 * j := by
    have h0 : 2 * j + 1 - 1 = 2 * j := by omega
    have hjj : j &&& j = j :=
      Nat.eq_of_testBit_eq fun i => by
        rw [Nat.testBit_land]
        cases j.testBit i <;> rfl
    rw [h0, land_two_mul_add_one, hjj]
  have hxor : (2 * j + 1) ^^^ ((2 * j + 1) &&& (2 * j + 1 - 1)) = 1 := by
    rw [hland]
    have : 2 * j + 1 = 2 * j + 1 := rfl
    rw [xor_two_mul_add_one, Nat.xor_self]
  simp only [maskBitsAux, Nat.succ_ne_zero, if_false]
  rw [hxor, hland]
  rfl

/-- `mask_bits_positions` lists exactly the set bits, without
duplicates, one per set bit. -/
theorem maskBits_spec : ∀ m : Nat,
    (∀ s, s ∈ mask_bits_positions m ↔ m.testBit s = true) ∧
    (mask_bits_positions m).Nodup ∧
    (mask_bits_positions m).length = bitCount m := by
  intro m
  induction m using Nat.strong_induction_on with
  | _ m ih =>
    by_cases hm : m = 0
    · subst hm
      refine ⟨fun s => ?_, List.nodup_nil, rfl⟩
      simp [mask_bits_positions, maskBitsAux, Nat.zero_testBit]
    · rcases Nat.even_or_odd m with he | ho
      · obtain ⟨r, hr⟩ := he
        obtain ⟨j, rfl⟩ : ∃ j, m = 2 * j := ⟨r, by omega⟩
        have hj : j ≠ 0 := by omega
        have heq : mask_bits_positions (2 * j) =
            (mask_bits_positions j).map (· + 1) :=
          maskBitsAux_even j (Nat.le_refl j) (Nat.le_refl (2 * j))
        obtain ⟨ihmem, ihnd, ihlen⟩ := ih j (by omega)
        refine ⟨fun s => ?_, ?_, ?_⟩
        · rw [heq]
          cases s with
          | zero =>
            simp only [List.mem_map]
            constructor
            · rintro ⟨a, _, ha⟩
              omega
            · intro hbit
              rw [testBit_two_mul_zero] at hbit
              cases hbit
          | succ s =>
            rw [testBit_two_mul]
            simp only [List.mem_map]
            constructor
            · rintro ⟨a, hmem, ha⟩
              have : a = s := by omega
              subst this
              exact (ihmem a).mp hmem
            · intro hbit
              exact ⟨s, (ihmem s).mpr hbit, rfl⟩
        · rw [heq]
          exact ihnd.map (fun a b => by omega)
        · rw [heq, List.length_map, ihlen]
          rw [bitCount_rec (2 * j) (by omega)]
          have h1 : 2 * j % 2 = 0 := by omega
          have h2 : 2 * j / 2 = j := by omega
          rw [h1, h2]
          omega
      · obtain ⟨r, hr⟩ := ho
        obtain ⟨j, rfl⟩ : ∃ j, m = 2 * j + 1 := ⟨r, by omega⟩
        have heq : mask_bits_positions (2 * j + 1) =
            0 :: maskBitsAux (2 * j) (2 * j) := by
          unfold mask_bits_positions
          have h1 : 2 * j + 1 = (2 * j) + 1 := rfl
          rw [maskBitsAux_odd j (Nat.le_refl _)]
        have heq2 : maskBitsAux (2 * j) (2 * j) = mask_bits_positions (2 * j) := rfl
        rw [heq2] at heq
        obtain ⟨ihmem, ihnd, ihlen⟩ := ih (2 * j) (by omega)
        refine ⟨fun s => ?_, ?_, ?_⟩
        · rw [heq]
          cases s with
          | zero =>
            constructor
            · intro _
              rw [testBit_two_mul_add_one_zero]
            · intro _
              exact List.mem_cons_self 0 _
          | succ s =>
            simp only [List.mem_cons]
            rw [testBit_two_mul_add_one]
            constructor
            · rintro (hs | hmem)
              · cases hs
              · have := (ihmem (s + 1)).mp hmem
                rw [testBit_two_mul] at this
                exact this
            · intro hbit
              refine Or.inr ((ihmem (s + 1)).mpr ?_)
              rw [testBit_two_mul]
              exact hbit
        · rw [heq]
          refine List.Nodup.cons ?_ ihnd
          intro hmem
          have := (ihmem 0).mp hmem
          rw [testBit_two_mul_zero] at this
          cases this
        · rw [heq]
          simp only [List.length_cons, ihlen]
          rw [bitCount_rec (2 * j + 1) (by omega)]
          have h1 : (2 * j + 1) % 2 = 1 := by omega
          have h2 : (2 * j + 1) / 2 = j := by omega
          rw [h1, h2]
          have h3 : bitCount (2 * j) = bitCount j := by
            by_cases hj : j = 0
            · subst hj; rfl
            · rw [bitCount_rec (2 * j) (by omega)]
              have ha : 2 * j % 2 = 0 := by omega
              have hb : 2 * j / 2 = j := by omega
              rw [ha, hb]
              omega
          rw [h3]
          omega

theorem oti_congr : ∀ (ps : List Nat) (u u2 : Nat),
    (∀ q ∈ ps, u.testBit q = u2.testBit q) →
    occupancy_to_index u ps = occupancy_to_index u2 ps := by
  intro ps
  induction ps with
  | nil =>
    intro u u2 _
    rfl
  | cons p ps ih =>
    intro u u2 h
    simp only [occupancy_to_index]
    rw [h p (List.mem_cons_self p ps), ih u u2 (fun q hq => h q (List.mem_cons_of_mem p hq))]

theorem oti_lt : ∀ (ps : List Nat) (u : Nat),
    occupancy_to_index u ps < 2 ^ ps.length := by
  intro ps
  induction ps with
  | nil =>
    intro u
    simp [occupancy_to_index]
  | cons p ps ih =>
    intro u
    simp only [occupancy_to_index, List.length_cons, Nat.pow_succ]
    have := ih u
    have hle : (if u.testBit p then (1:Nat) else 0) ≤ 1 := by
      by_cases hb : u.testBit p <;> simp [hb]
    omega

theorem ito_oti : ∀ (ps : List Nat) (u : Nat), ps.Nodup →
    (∀ s, u.testBit s = true → s ∈ ps) →
    index_to_occupancy (occupancy_to_index u ps) ps = u := by
  intro ps
  induction ps with
  | nil =>
    intro u _ hsub
    have : u = 0 := by
      apply Nat.eq_of_testBit_eq
      intro i
      rw [Nat.zero_testBit]
      cases hi : u.testBit i
      · rfl
      · exact absurd (hsub i hi) (List.not_mem_nil i)
    rw [this]
    rfl
  | cons p ps ih =>
    intro u hnd hsub
    obtain ⟨hp, hnd'⟩ := List.nodup_cons.mp hnd
    simp only [occupancy_to_index, index_to_occupancy]
    have hmod : ((if u.testBit p then 1 else 0) + 2 * occupancy_to_index u ps) % 2 =
        if u.testBit p then 1 else 0 := by
      by_cases hb : u.testBit p <;> simp [hb] <;> omega
    have hdiv : ((if u.testBit p then 1 else 0) + 2 * occupancy_to_index u ps) / 2 =
        occupancy_to_index u ps := by
      by_cases hb : u.testBit p <;> simp [hb] <;> omega
    simp only [hmod, hdiv]
    have hcond : (if (if u.testBit p then 1 else 0) = 1 then (1 <<< p : Nat) else 0) =
        if u.testBit p then 1 <<< p else 0 := by
      by_cases hb : u.testBit p <;> simp [hb]
    simp only [hcond]
    set u' := Nat.ldiff u (1 <<< p) with hu'
    have hu'bit : ∀ s, u'.testBit s = (u.testBit s && !(decide (p = s))) := by
      intro s
      rw [hu', Nat.testBit_ldiff, testBit_single]
    have hoti : occupancy_to_index u ps = occupancy_to_index u' ps := by
      apply oti_congr
      intro q hq
      rw [hu'bit q]
      have : decide (p = q) = false := by
        simp only [decide_eq_false_iff_not]
        intro hpq
        exact hp (hpq ▸ hq)
      rw [this]
      simp
    rw [hoti, ih u' hnd' (fun s hs => ?_)]
    · apply natEqOfBits
      intro i
      rw [Nat.testBit_lor, hu'bit i]
      by_cases hip : p = i
      · subst hip
        simp only [decide_True, Bool.not_true, Bool.and_false, Bool.or_false]
        by_cases hb : u.testBit p
        · rw [if_pos hb, testBit_single]
          simp [hb]
        · rw [if_neg hb, Nat.zero_testBit]
          cases hub : u.testBit p
          · simp
          · exact absurd hub hb
      · have hd : decide (p = i) = false := by
          simp only [decide_eq_false_iff_not]
          exact hip
        rw [hd]
        simp only [Bool.not_false, Bool.and_true]
        by_cases hb : u.testBit p
        · rw [if_pos hb, testBit_single]
          have : decide (p = i) = false := hd
          rw [this]
          simp
        · rw [if_neg hb, Nat.zero_testBit]
          simp
    · rw [hu'bit s] at hs
      simp only [Bool.and_eq_true, Bool.not_eq_true', decide_eq_false_iff_not] at hs
      rcases List.mem_cons.mp (hsub s hs.1) with h | h
      · exact absurd h.symm hs.2
      · exact h

theorem land_single_ne (x s : Nat) : (x &&& (1 <<< s) ≠ 0) ↔ x.testBit s = true := by
  constructor
  · intro h
    by_contra hb
    apply h
    apply Nat.eq_of_testBit_eq
    intro i
    rw [Nat.testBit_land, testBit_single, Nat.zero_testBit]
    by_cases hsi : s = i
    · subst hsi
      simp only [Bool.not_eq_true] at hb
      simp [hb]
    · simp [hsi]
  · intro h h0
    have := congrArg (fun n => n.testBit s) h0
    simp only [Nat.testBit_land, testBit_single, Nat.zero_testBit, decide_True,
      Bool.and_true, h] at this
    exact absurd this (by simp)

theorem walkRay_congr (o1 o2 : Nat) : ∀ l : List Nat,
    (∀ s ∈ l.dropLast, o1.testBit s = o2.testBit s) → walkRay o1 l = walkRay o2 l := by
  intro l
  induction l with
  | nil => intro _; rfl
  | cons s rest ih =>
    intro h
    cases rest with
    | nil =>
      show (1 <<< s) ||| (if o1 &&& (1 <<< s) ≠ 0 then 0 else walkRay o1 []) =
        (1 <<< s) ||| (if o2 &&& (1 <<< s) ≠ 0 then 0 else walkRay o2 [])
      have e1 : walkRay o1 [] = 0 := rfl
      have e2 : walkRay o2 [] = 0 := rfl
      rw [e1, e2, ite_self, ite_self]
    | cons t rest' =>
      have hs : o1.testBit s = o2.testBit s := by
        apply h
        simp [List.dropLast]
      have hcond : (o1 &&& (1 <<< s) ≠ 0) ↔ (o2 &&& (1 <<< s) ≠ 0) := by
        rw [land_single_ne, land_single_ne, hs]
      have hrest : walkRay o1 (t :: rest') = walkRay o2 (t :: rest') := by
        apply ih
        intro u hu
        apply h
        simp only [List.dropLast]
        exact List.mem_cons_of_mem s hu
      show (1 <<< s) ||| (if o1 &&& (1 <<< s) ≠ 0 then 0 else walkRay o1 (t :: rest')) =
        (1 <<< s) ||| (if o2 &&& (1 <<< s) ≠ 0 then 0 else walkRay o2 (t :: rest'))
      rw [hrest]
      congr 1
      exact if_congr hcond rfl rfl

theorem rookMaskCovers : ∀ sq, sq < 64 →
    (∀ s ∈ (rayNorthTo 8 sq).dropLast, (mask_rook_attacks sq).testBit s = true) ∧
    (∀ s ∈ (raySouthTo 0 sq).dropLast, (mask_rook_attacks sq).testBit s = true) ∧
    (∀ s ∈ (rayEastTo 8 sq).dropLast, (mask_rook_attacks sq).testBit s = true) ∧
    (∀ s ∈ (rayWestTo 0 sq).dropLast, (mask_rook_attacks sq).testBit s = true) := by decide

theorem bishopMaskCovers : ∀ sq, sq < 64 →
    (∀ s ∈ (rayNE (min (7 - fileOf sq) (7 - rankOf sq)) sq).dropLast,
      (mask_bishop_attacks sq).testBit s = true) ∧
    (∀ s ∈ (raySW (min (fileOf sq) (rankOf sq)) sq).dropLast,
      (mask_bishop_attacks sq).testBit s = true) ∧
    (∀ s ∈ (rayNW (min (fileOf sq) (7 - rankOf sq)) sq).dropLast,
      (mask_bishop_attacks sq).testBit s = true) ∧
    (∀ s ∈ (raySE (min (7 - fileOf sq) (rankOf sq)) sq).dropLast,
      (mask_bishop_attacks sq).testBit s = true) := by decide

theorem rook_attacks_masked (sq occ : Nat) (h : sq < 64) :
    _rook_attacks_from_occupancy sq (occ &&& mask_rook_attacks sq) =
      _rook_attacks_from_occupancy sq occ := by
  obtain ⟨h1, h2, h3, h4⟩ := rookMaskCovers sq h
  have key : ∀ ray : List Nat,
      (∀ s ∈ ray.dropLast, (mask_rook_attacks sq).testBit s = true) →
      walkRay (occ &&& mask_rook_attacks sq) ray = walkRay occ ray := by
    intro ray hr
    apply walkRay_congr
    intro s hs
    rw [Nat.testBit_land, hr s hs, Bool.and_true]
  unfold _rook_attacks_from_occupancy
  rw [key _ h1, key _ h2, key _ h3, key _ h4]

theorem bishop_attacks_masked (sq occ : Nat) (h : sq < 64) :
    _bishop_attacks_from_occupancy sq (occ &&& mask_bishop_attacks sq) =
      _bishop_attacks_from_occupancy sq occ := by
  obtain ⟨h1, h2, h3, h4⟩ := bishopMaskCovers sq h
  have key : ∀ ray : List Nat,
      (∀ s ∈ ray.dropLast, (mask_bishop_attacks sq).testBit s = true) →
      walkRay (occ &&& mask_bishop_attacks sq) ray = walkRay occ ray := by
    intro ray hr
    apply walkRay_congr
    intro s hs
    rw [Nat.testBit_land, hr s hs, Bool.and_true]
  unfold _bishop_attacks_from_occupancy
  rw [key _ h1, key _ h2, key _ h3, key _ h4]

theorem buildStep_spec (sq : Nat) (ir : Bool) (mask magic shift : Nat) (ps : List Nat)
    (t t' : List (Option Nat)) (i : Nat)
    (h : buildStep sq ir mask magic shift ps t i = some t') :
    (t' = t ∧ t.get? (((index_to_occupancy i ps &&& mask) * magic &&& U64) >>> shift) =
        some (some (if ir then _rook_attacks_from_occupancy sq (index_to_occupancy i ps)
          else _bishop_attacks_from_occupancy sq (index_to_occupancy i ps)))) ∨
      (t' = t.set (((index_to_occupancy i ps &&& mask) * magic &&& U64) >>> shift)
          (some (if ir then _rook_attacks_from_occupancy sq (index_to_occupancy i ps)
            else _bishop_attacks_from_occupancy sq (index_to_occupancy i ps))) ∧
        t.get? (((index_to_occupancy i ps &&& mask) * magic &&& U64) >>> shift) =
          some none) := by
  simp only [buildStep] at h
  split at h
  · exact absurd h (by simp)
  · right
    next hg =>
    exact ⟨(Option.some.inj h).symm, hg⟩
  · next existing hg =>
    split at h
    · next hir =>
      split at h
      · next he =>
        left
        refine ⟨(Option.some.inj h).symm, ?_⟩
        rw [hg, if_pos hir, he]
      · exact absurd h (by simp)
    · next hir =>
      split at h
      · next he =>
        left
        refine ⟨(Option.some.inj h).symm, ?_⟩
        rw [hg, if_neg hir, he]
      · exact absurd h (by simp)

theorem buildStep_mono (sq : Nat) (ir : Bool) (mask magic shift : Nat) (ps : List Nat)
    (t t' : List (Option Nat)) (i : Nat)
    (h : buildStep sq ir mask magic shift ps t i = some t') :
    ∀ c v, t.get? c = some (some v) → t'.get? c = some (some v) := by
  intro c v hc
  rcases buildStep_spec sq ir mask magic shift ps t t' i h with ⟨rfl, _⟩ | ⟨rfl, hg⟩
  · exact hc
  · have hne : ((index_to_occupancy i ps &&& mask) * magic &&& U64) >>> shift ≠ c := by
      intro he
      rw [he, hc] at hg
      exact absurd (Option.some.inj hg) (by simp)
    rw [List.get?_eq_getElem?] at hc ⊢
    rw [List.getElem?_set_ne hne]
    exact hc

theorem foldBuild_mono (sq : Nat) (ir : Bool) (mask magic shift : Nat) (ps : List Nat) :
    ∀ (l : List Nat) (t tf : List (Option Nat)),
    l.foldlM (buildStep sq ir mask magic shift ps) t = some tf →
    ∀ c v, t.get? c = some (some v) → tf.get? c = some (some v) := by
  intro l
  induction l with
  | nil =>
    intro t tf h c v hc
    rw [List.foldlM_nil] at h
    rw [← Option.some.inj h]
    exact hc
  | cons a l ih =>
    intro t tf h c v hc
    rw [List.foldlM_cons] at h
    cases hstep : buildStep sq ir mask magic shift ps t a with
    | none => rw [hstep] at h; exact absurd h (by simp)
    | some t1 =>
      rw [hstep] at h
      exact ih t1 tf h c v (buildStep_mono sq ir mask magic shift ps t t1 a hstep c v hc)

theorem buildStep_fills (sq : Nat) (ir : Bool) (mask magic shift : Nat) (ps : List Nat)
    (t t' : List (Option Nat)) (i : Nat)
    (h : buildStep sq ir mask magic shift ps t i = some t') :
    t'.get? (((index_to_occupancy i ps &&& mask) * magic &&& U64) >>> shift) =
      some (some (if ir then _rook_attacks_from_occupancy sq (index_to_occupancy i ps)
        else _bishop_attacks_from_occupancy sq (index_to_occupancy i ps))) := by
  rcases buildStep_spec sq ir mask magic shift ps t t' i h with ⟨rfl, hg⟩ | ⟨rfl, hg⟩
  · exact hg
  · rw [List.get?_eq_getElem?] at hg ⊢
    have hlt : ((index_to_occupancy i ps &&& mask) * magic &&& U64) >>> shift < t.length :=
      (List.getElem?_eq_some.mp hg).1
    simp [List.getElem?_set_self', hg]

theorem foldBuild_fills (sq : Nat) (ir : Bool) (mask magic shift : Nat) (ps : List Nat) :
    ∀ (l : List Nat) (t tf : List (Option Nat)),
    l.foldlM (buildStep sq ir mask magic shift ps) t = some tf →
    ∀ i ∈ l,
    tf.get? (((index_to_occupancy i ps &&& mask) * magic &&& U64) >>> shift) =
      some (some (if ir then _rook_attacks_from_occupancy sq (index_to_occupancy i ps)
        else _bishop_attacks_from_occupancy sq (index_to_occupancy i ps))) := by
  intro l
  induction l with
  | nil =>
    intro t tf _ i hi
    exact absurd hi (List.not_mem_nil i)
  | cons a l ih =>
    intro t tf h i hi
    rw [List.foldlM_cons] at h
    cases hstep : buildStep sq ir mask magic shift ps t a with
    | none => rw [hstep] at h; exact absurd h (by simp)
    | some t1 =>
      rw [hstep] at h
      rcases List.mem_cons.mp hi with rfl | hi'
      · exact foldBuild_mono sq ir mask magic shift ps l t1 tf h _ _
          (buildStep_fills sq ir mask magic shift ps t t1 i hstep)
      · exact ih t1 tf h i hi'

theorem ito_subset : ∀ (ps : List Nat) (idx s : Nat),
    (index_to_occupancy idx ps).testBit s = true → s ∈ ps := by
  intro ps
  induction ps with
  | nil =>
    intro idx s hs
    rw [show index_to_occupancy idx [] = 0 from rfl, Nat.zero_testBit] at hs
    exact absurd hs (by simp)
  | cons p ps ih =>
    intro idx s hs
    rw [show index_to_occupancy idx (p :: ps) =
        (if idx % 2 = 1 then 1 <<< p else 0) ||| index_to_occupancy (idx / 2) ps from rfl,
      Nat.testBit_lor] at hs
    rcases Bool.or_eq_true_iff.mp hs with h1 | h2
    · by_cases hm : idx % 2 = 1
      · rw [if_pos hm, testBit_single] at h1
        exact List.mem_cons.mpr (Or.inl (of_decide_eq_true h1).symm)
      · rw [if_neg hm, Nat.zero_testBit] at h1
        exact absurd h1 (by simp)
    · exact List.mem_cons_of_mem p (ih (idx / 2) s h2)

theorem land_land_self (a b : Nat) : (a &&& b) &&& b = a &&& b := by
  apply Nat.eq_of_testBit_eq
  intro i
  simp only [Nat.testBit_land]
  cases a.testBit i <;> cases b.testBit i <;> rfl

theorem build_lookup (sq : Nat) (ir : Bool) (mask magic : Nat) (table : List Nat)
    (hb : _build_attack_table_for_square sq mask (mask_bits_positions mask) ir magic
      (64 - bitCount mask) = some table) (occ : Nat) :
    tableLookup table mask magic (64 - bitCount mask) occ =
      (if ir then _rook_attacks_from_occupancy sq (occ &&& mask)
       else _bishop_attacks_from_occupancy sq (occ &&& mask)) := by
  obtain ⟨hmem, hnd, hlen⟩ := maskBits_spec mask
  simp only [_build_attack_table_for_square, Option.map_eq_some'] at hb
  obtain ⟨t, hfold, htable⟩ := hb
  have hsub : ∀ s, (occ &&& mask).testBit s = true → s ∈ mask_bits_positions mask := by
    intro s hs
    rw [Nat.testBit_land, Bool.and_eq_true] at hs
    exact (hmem s).mpr hs.2
  have hidx : occupancy_to_index (occ &&& mask) (mask_bits_positions mask) <
      1 <<< bitCount mask := by
    rw [Nat.shiftLeft_eq, Nat.one_mul, ← hlen]
    exact oti_lt (mask_bits_positions mask) (occ &&& mask)
  have hito : index_to_occupancy
      (occupancy_to_index (occ &&& mask) (mask_bits_positions mask))
      (mask_bits_positions mask) = occ &&& mask :=
    ito_oti (mask_bits_positions mask) (occ &&& mask) hnd hsub
  have hfill := foldBuild_fills sq ir mask magic (64 - bitCount mask)
    (mask_bits_positions mask) (List.range (1 <<< bitCount mask))
    (List.replicate (1 <<< bitCount mask) (none : Option Nat)) t hfold
    (occupancy_to_index (occ &&& mask) (mask_bits_positions mask))
    (List.mem_range.mpr hidx)
  rw [hito, land_land_self] at hfill
  rw [← htable]
  unfold tableLookup
  rw [List.getD_eq_getElem?_getD, List.getElem?_map, ← List.get?_eq_getElem?, hfill]
  rfl


/-- C5: for every square and occupancy, whenever the magic-table
initialisation for that square succeeds (the table build raises no
collision error), the table lookup returns exactly the ray-walk
reference attack set, for rook and bishop alike. -/
theorem c5_magic_attack_tables_match_reference (magicR magicB sq occ attR attB : Nat)
    (hsq : sq < 64) :
    (rook_attacks magicR sq occ = some attR →
      attR = _rook_attacks_from_occupancy sq occ) ∧
    (bishop_attacks magicB sq occ = some attB →
      attB = _bishop_attacks_from_occupancy sq occ) := by
  constructor
  · intro h
    simp only [rook_attacks, Option.map_eq_some'] at h
    obtain ⟨table, hb, hlook⟩ := h
    rw [← hlook, build_lookup sq true (mask_rook_attacks sq) magicR table hb occ,
      if_pos rfl]
    exact rook_attacks_masked sq occ hsq
  · intro h
    simp only [bishop_attacks, Option.map_eq_some'] at h
    obtain ⟨table, hb, hlook⟩ := h
    rw [← hlook, build_lookup sq false (mask_bishop_attacks sq) magicB table hb occ]
    have : (if false then _rook_attacks_from_occupancy sq (occ &&& mask_bishop_attacks sq)
        else _bishop_attacks_from_occupancy sq (occ &&& mask_bishop_attacks sq)) =
        _bishop_attacks_from_occupancy sq (occ &&& mask_bishop_attacks sq) := rfl
    rw [this]
    exact bishop_attacks_masked sq occ hsq

/-- Closed instance: square a1, the bishop magic 0x2020202020200 builds its
64-entry table without collision, and the hot-path lookup of the occupancy
with one blocker on d4 returns the ray-walk reference value. -/
theorem c5_magic_attack_tables_match_reference_witness :
    (0 : Nat) < 64 ∧
    bishop_attacks 0x2020202020200 0 (1 <<< 27) =
      some (_bishop_attacks_from_occupancy 0 (1 <<< 27)) ∧
    _bishop_attacks_from_occupancy 0 (1 <<< 27) =
      _bishop_attacks_from_occupancy 0 (1 <<< 27) :=
  ⟨by decide, by decide,
    (c5_magic_attack_tables_match_reference 1 0x2020202020200 0 (1 <<< 27) 0
      (_bishop_attacks_from_occupancy 0 (1 <<< 27)) (by decide)).2 (by decide)⟩

/-! ### C4 — make_move / unmake_move round trip (spec §4.4)

`make_move`/`unmake_move` are absent from `src/` (only their callers
ship); the definitions below are modelled from the specification's
step list and data-model section.
-/

/-- Modelled from the spec: the four Zobrist key tables of §4.3; the
key values are abstract parameters. -/
structure Zobrist where
  piece_square : Fin 2 → Fin 6 → Nat → Nat
  castling : Nat → Nat
  enpassant : Nat → Nat
  side_to_move : Nat

/-- Modelled from the spec: the `UndoRecord`
`{move, captured_piece?, prior_castling, prior_ep, prior_halfmove,
prior_zobrist}` of §3. -/
structure UndoRecord where
  move : SMove
  captured_piece : Option (Fin 6)
  prior_castling : Nat
  prior_ep : Option Nat
  prior_halfmove : Nat
  prior_zobrist : Nat

/-- Modelled from the spec: the full `Board` entity of §3 (bitboards,
cached occupancies, mailbox, game state, Zobrist key, undo history). -/
@[ext]
structure FBoard where
  bitboards : Fin 2 → Fin 6 → Nat
  occupancy : Fin 2 → Nat
  all_occupancy : Nat
  mailbox : Nat → Option (Fin 2 × Fin 6)
  side_to_move : Fin 2
  castling_rights : Nat
  en_passant_square : Option Nat
  halfmove_clock : Nat
  fullmove_number : Nat
  zobrist_key : Nat
  history : List UndoRecord

def flipC (c : Fin 2) : Fin 2 := ⟨1 - c.val, by omega⟩

/-- Pointwise mailbox write `mailbox[s] = v`. -/
def mset (f : Nat → Option (Fin 2 × Fin 6)) (s : Nat) (v : Option (Fin 2 × Fin 6)) :
    Nat → Option (Fin 2 × Fin 6) :=
  fun t => if t = s then v else f t

/-- XOR a mask into one piece bitboard. -/
def xorBB (bb : Fin 2 → Fin 6 → Nat) (c : Fin 2) (p : Fin 6) (mask : Nat) :
    Fin 2 → Fin 6 → Nat :=
  fun c' p' => if c' = c ∧ p' = p then bb c' p' ^^^ mask else bb c' p'

/-- XOR a mask into one colour occupancy. -/
def xorOcc (occ : Fin 2 → Nat) (c : Fin 2) (mask : Nat) : Fin 2 → Nat :=
  fun c' => if c' = c then occ c' ^^^ mask else occ c'

/-- The en-passant victim square `to + (WHITE ? -8 : +8)` of §4.4 step 3. -/
def epVictimSq (stm : Fin 2) (t : Nat) : Nat :=
  if stm = (0 : Fin 2) then t - 8 else t + 8

/-- §4.4 step 3's en-passant test: a pawn moving onto the recorded
en-passant square. -/
def isEpMove (ep : Option Nat) (m : SMove) : Bool :=
  decide (m.piece = (0 : Fin 6)) && decide (ep = some m.to_sq)

/-- §4.4 step 5's castling test: a king moving two files. -/
def isCastleMove (m : SMove) : Bool :=
  decide (m.piece = (5 : Fin 6)) &&
    (decide (m.to_sq = m.from_sq + 2) || decide (m.from_sq = m.to_sq + 2))

/-- Rook origin for a castle king move (h-file or a-file rook). -/
def castleRookFrom (m : SMove) : Nat :=
  if m.to_sq = m.from_sq + 2 then m.from_sq + 3 else m.from_sq - 4

/-- Rook destination for a castle king move (f-file or d-file). -/
def castleRookTo (m : SMove) : Nat :=
  if m.to_sq = m.from_sq + 2 then m.from_sq + 1 else m.from_sq - 1

/-- Clear the bits of `mask` in `cr` (no `~` on unbounded Nat). -/
def crClear (cr mask : Nat) : Nat := (cr ||| mask) ^^^ mask

/-- §4.4 step 6: the castling-rights bits invalidated by touching a
corner square (WK=1 h1, WQ=2 a1, BK=4 h8, BQ=8 a8). -/
def crSquareMask (s : Nat) : Nat :=
  if s = 7 then 1 else if s = 0 then 2 else if s = 63 then 4 else
    if s = 56 then 8 else 0

/-- §4.4 step 6: bits cleared when the king itself moves. -/
def crKingMask (stm : Fin 2) (m : SMove) : Nat :=
  if m.piece = (5 : Fin 6) then (if stm = (0 : Fin 2) then 3 else 12) else 0

/-- §4.4 step 7: a pawn double push sets the skipped square. -/
def newEpSquare (m : SMove) : Option Nat :=
  if m.piece = (0 : Fin 6) ∧ (m.to_sq = m.from_sq + 16 ∨ m.from_sq = m.to_sq + 16)
  then some ((m.from_sq + m.to_sq) / 2) else none

def epKeyOf (Z : Zobrist) : Option Nat → Nat
  | some e => Z.enpassant e
  | none => 0

/-- §4.4 steps 3-5 on the piece bitboards: remove the victim, XOR the
mover out of `from` and into `to` (promotions land the promoted
piece), and move the castle rook. -/
def bbMake (bb : Fin 2 → Fin 6 → Nat) (stm : Fin 2) (m : SMove)
    (captured : Option (Fin 6)) (capSq : Nat) : Fin 2 → Fin 6 → Nat :=
  let s1 := match captured with
    | some cp => xorBB bb (flipC stm) cp (1 <<< capSq)
    | none => bb
  let s2 := xorBB s1 stm m.piece (1 <<< m.from_sq)
  let s3 := xorBB s2 stm (m.promotion.getD m.piece) (1 <<< m.to_sq)
  if isCastleMove m then
    xorBB s3 stm 3 ((1 <<< castleRookFrom m) ^^^ (1 <<< castleRookTo m))
  else s3

/-- The reversal of `bbMake`, XORing the same masks in LIFO order. -/
def bbUnmake (bb : Fin 2 → Fin 6 → Nat) (stm : Fin 2) (m : SMove)
    (captured : Option (Fin 6)) (capSq : Nat) : Fin 2 → Fin 6 → Nat :=
  let s1 := if isCastleMove m then
      xorBB bb stm 3 ((1 <<< castleRookFrom m) ^^^ (1 <<< castleRookTo m))
    else bb
  let s2 := xorBB s1 stm (m.promotion.getD m.piece) (1 <<< m.to_sq)
  let s3 := xorBB s2 stm m.piece (1 <<< m.from_sq)
  match captured with
  | some cp => xorBB s3 (flipC stm) cp (1 <<< capSq)
  | none => s3

/-- §4.4 steps 3-5 on the colour occupancies. -/
def occMake (occ : Fin 2 → Nat) (stm : Fin 2) (m : SMove)
    (captured : Option (Fin 6)) (capSq : Nat) : Fin 2 → Nat :=
  let s1 := match captured with
    | some _ => xorOcc occ (flipC stm) (1 <<< capSq)
    | none => occ
  let s2 := xorOcc s1 stm ((1 <<< m.from_sq) ^^^ (1 <<< m.to_sq))
  if isCastleMove m then
    xorOcc s2 stm ((1 <<< castleRookFrom m) ^^^ (1 <<< castleRookTo m))
  else s2

/-- The reversal of `occMake`. -/
def occUnmake (occ : Fin 2 → Nat) (stm : Fin 2) (m : SMove)
    (captured : Option (Fin 6)) (capSq : Nat) : Fin 2 → Nat :=
  let s1 := if isCastleMove m then
      xorOcc occ stm ((1 <<< castleRookFrom m) ^^^ (1 <<< castleRookTo m))
    else occ
  let s2 := xorOcc s1 stm ((1 <<< m.from_sq) ^^^ (1 <<< m.to_sq))
  match captured with
  | some _ => xorOcc s2 (flipC stm) (1 <<< capSq)
  | none => s2

/-- §4.4 steps 3-5 on the mailbox: clear the victim square, vacate
`from`, land the (possibly promoted) mover on `to`, move the rook. -/
def mbMake (mb : Nat → Option (Fin 2 × Fin 6)) (stm : Fin 2) (m : SMove)
    (captured : Option (Fin 6)) (capSq : Nat) : Nat → Option (Fin 2 × Fin 6) :=
  let s1 := match captured with
    | some _ => mset mb capSq none
    | none => mb
  let s2 := mset (mset s1 m.from_sq none) m.to_sq
    (some (stm, m.promotion.getD m.piece))
  if isCastleMove m then
    mset (mset s2 (castleRookFrom m) none) (castleRookTo m) (some (stm, 3))
  else s2

/-- The reversal of `mbMake`: put the rook back, vacate `to`, put the
victim back, put the mover back on `from`. -/
def mbUnmake (mb : Nat → Option (Fin 2 × Fin 6)) (stm : Fin 2) (m : SMove)
    (captured : Option (Fin 6)) (capSq : Nat) : Nat → Option (Fin 2 × Fin 6) :=
  let s1 := if isCastleMove m then
      mset (mset mb (castleRookTo m) none) (castleRookFrom m) (some (stm, 3))
    else mb
  let s2 := mset s1 m.to_sq none
  let s3 := match captured with
    | some cp => mset s2 capSq (some (flipC stm, cp))
    | none => s2
  mset s3 m.from_sq (some (stm, m.piece))

/-- Modelled from the spec: `make_move(m)` following §4.4 steps 1-11:
push the undo record, remove any captured piece (normal or en
passant), move the mover (promotions land the promoted piece), move
the castle rook on a two-square king move, update castling rights,
en-passant square, halfmove clock, side to move, fullmove number and
the incremental Zobrist key, and recompute `all_occupancy`. -/
def make_move (Z : Zobrist) (b : FBoard) (m : SMove) : FBoard :=
  let stm := b.side_to_move
  let isEp := isEpMove b.en_passant_square m
  let capSq := if isEp then epVictimSq b.side_to_move m.to_sq else m.to_sq
  let captured : Option (Fin 6) :=
    if isEp then some 0
    else match b.mailbox m.to_sq with
      | some (c, p) => if c = flipC b.side_to_move then some p else none
      | none => none
  let und : UndoRecord :=
    { move := m, captured_piece := captured, prior_castling := b.castling_rights,
      prior_ep := b.en_passant_square, prior_halfmove := b.halfmove_clock,
      prior_zobrist := b.zobrist_key }
  let occ' := occMake b.occupancy stm m captured capSq
  let z1 := match captured with
    | some cp => b.zobrist_key ^^^ Z.piece_square (flipC stm) cp capSq
    | none => b.zobrist_key
  let z2 := z1 ^^^ Z.piece_square stm m.piece m.from_sq ^^^
    Z.piece_square stm (m.promotion.getD m.piece) m.to_sq
  let z3 := if isCastleMove m then
      z2 ^^^ Z.piece_square stm 3 (castleRookFrom m) ^^^
        Z.piece_square stm 3 (castleRookTo m)
    else z2
  let newCR := crClear b.castling_rights
    (crKingMask stm m ||| crSquareMask m.from_sq ||| crSquareMask m.to_sq)
  let z4 := z3 ^^^ Z.castling b.castling_rights ^^^ Z.castling newCR
  let newEp := newEpSquare m
  let z5 := z4 ^^^ epKeyOf Z b.en_passant_square ^^^ epKeyOf Z newEp
  let newHm := if m.piece = (0 : Fin 6) ∨ captured.isSome then 0
    else b.halfmove_clock + 1
  let z6 := z5 ^^^ Z.side_to_move
  let newFull := if stm = (1 : Fin 2) then b.fullmove_number + 1
    else b.fullmove_number
  { bitboards := bbMake b.bitboards stm m captured capSq,
    occupancy := occ', all_occupancy := occ' 0 ||| occ' 1,
    mailbox := mbMake b.mailbox stm m captured capSq,
    side_to_move := flipC stm, castling_rights := newCR,
    en_passant_square := newEp, halfmove_clock := newHm,
    fullmove_number := newFull, zobrist_key := z6,
    history := und :: b.history }

/-- Modelled from the spec: `unmake_move()` pops the top `UndoRecord`
and reverses every step of `make_move`, restoring castling rights,
en-passant square, halfmove clock and the Zobrist key directly from
the record; `none` models popping an empty history. -/
def unmake_move (b : FBoard) : Option FBoard :=
  match b.history with
  | [] => none
  | und :: rest =>
    let m := und.move
    let mover := flipC b.side_to_move
    let isEp := isEpMove und.prior_ep m
    let capSq := if isEp then epVictimSq mover m.to_sq else m.to_sq
    let occ' := occUnmake b.occupancy mover m und.captured_piece capSq
    some
      { bitboards := bbUnmake b.bitboards mover m und.captured_piece capSq,
        occupancy := occ', all_occupancy := occ' 0 ||| occ' 1,
        mailbox := mbUnmake b.mailbox mover m und.captured_piece capSq,
        side_to_move := mover, castling_rights := und.prior_castling,
        en_passant_square := und.prior_ep, halfmove_clock := und.prior_halfmove,
        fullmove_number :=
          (if mover = (1 : Fin 2) then b.fullmove_number - 1 else b.fullmove_number),
        zobrist_key := und.prior_zobrist, history := rest }

/-- The preconditions under which a move can be executed and undone
exactly: the mover sits on `from`, the destination is a different
square not occupied by the mover's own side, the cached
`all_occupancy` is consistent, an en-passant victim really sits on the
victim square (itself distinct from `from` and `to`), and a castle
finds its rook in place with an empty destination, on squares distinct
from the king's. -/
def MovePre (b : FBoard) (m : SMove) : Prop :=
  b.mailbox m.from_sq = some (b.side_to_move, m.piece) ∧
  m.from_sq ≠ m.to_sq ∧
  b.all_occupancy = b.occupancy 0 ||| b.occupancy 1 ∧
  (isEpMove b.en_passant_square m = true →
    b.mailbox m.to_sq = none ∧
    b.mailbox (epVictimSq b.side_to_move m.to_sq) =
      some (flipC b.side_to_move, 0) ∧
    epVictimSq b.side_to_move m.to_sq ≠ m.from_sq ∧
    epVictimSq b.side_to_move m.to_sq ≠ m.to_sq) ∧
  (isEpMove b.en_passant_square m = false →
    ∀ p : Fin 6, b.mailbox m.to_sq ≠ some (b.side_to_move, p)) ∧
  (isCastleMove m = true →
    b.mailbox m.to_sq = none ∧
    b.mailbox (castleRookFrom m) = some (b.side_to_move, 3) ∧
    b.mailbox (castleRookTo m) = none ∧
    castleRookFrom m ≠ m.from_sq ∧ castleRookFrom m ≠ m.to_sq ∧
    castleRookTo m ≠ m.from_sq ∧ castleRookTo m ≠ m.to_sq ∧
    castleRookFrom m ≠ castleRookTo m)

set_option synthInstance.maxSize 512 in
set_option synthInstance.maxHeartbeats 1000000 in
instance (b : FBoard) (m : SMove) : Decidable (MovePre b m) := by
  unfold MovePre
  infer_instance

theorem xorBB_xorBB (bb : Fin 2 → Fin 6 → Nat) (c : Fin 2) (p : Fin 6) (mask : Nat) :
    xorBB (xorBB bb c p mask) c p mask = bb := by
  funext c' p'
  unfold xorBB
  by_cases h : c' = c ∧ p' = p
  · rw [if_pos h, if_pos h, Nat.xor_assoc, Nat.xor_self, Nat.xor_zero]
  · rw [if_neg h, if_neg h]

theorem xorOcc_xorOcc (occ : Fin 2 → Nat) (c : Fin 2) (mask : Nat) :
    xorOcc (xorOcc occ c mask) c mask = occ := by
  funext c'
  unfold xorOcc
  by_cases h : c' = c
  · rw [if_pos h, if_pos h, Nat.xor_assoc, Nat.xor_self, Nat.xor_zero]
  · rw [if_neg h, if_neg h]

theorem bbUnmake_bbMake (bb : Fin 2 → Fin 6 → Nat) (stm : Fin 2) (m : SMove)
    (captured : Option (Fin 6)) (capSq : Nat) :
    bbUnmake (bbMake bb stm m captured capSq) stm m captured capSq = bb := by
  unfold bbMake bbUnmake
  cases captured <;> by_cases hc : isCastleMove m <;>
    simp [hc, xorBB_xorBB]

theorem occUnmake_occMake (occ : Fin 2 → Nat) (stm : Fin 2) (m : SMove)
    (captured : Option (Fin 6)) (capSq : Nat) :
    occUnmake (occMake occ stm m captured capSq) stm m captured capSq = occ := by
  unfold occMake occUnmake
  cases captured <;> by_cases hc : isCastleMove m <;>
    simp [hc, xorOcc_xorOcc]

theorem mb_roundtrip_quiet (mb : Nat → Option (Fin 2 × Fin 6)) (stm : Fin 2) (m : SMove)
    (hC : isCastleMove m = false)
    (hfrom : mb m.from_sq = some (stm, m.piece))
    (hft : m.from_sq ≠ m.to_sq)
    (hto : mb m.to_sq = none) :
    mbUnmake (mbMake mb stm m none m.to_sq) stm m none m.to_sq = mb := by
  funext s
  simp only [mbMake, mbUnmake, hC, Bool.false_eq_true, if_false, mset]
  by_cases hsf : s = m.from_sq
  · rw [if_pos hsf, hsf, hfrom]
  · rw [if_neg hsf]
    by_cases hst : s = m.to_sq
    · rw [if_pos hst, hst, hto]
    · rw [if_neg hst, if_neg hst, if_neg hsf]

theorem mb_roundtrip_capture (mb : Nat → Option (Fin 2 × Fin 6)) (stm : Fin 2)
    (m : SMove) (cp : Fin 6) (capSq : Nat)
    (hC : isCastleMove m = false)
    (hfrom : mb m.from_sq = some (stm, m.piece))
    (hft : m.from_sq ≠ m.to_sq)
    (hcap : (capSq = m.to_sq ∧ mb m.to_sq = some (flipC stm, cp)) ∨
      (capSq ≠ m.from_sq ∧ capSq ≠ m.to_sq ∧ mb m.to_sq = none ∧
        mb capSq = some (flipC stm, cp))) :
    mbUnmake (mbMake mb stm m (some cp) capSq) stm m (some cp) capSq = mb := by
  funext s
  simp only [mbMake, mbUnmake, hC, Bool.false_eq_true, if_false, mset]
  by_cases hsf : s = m.from_sq
  · rw [if_pos hsf, hsf, hfrom]
  · rw [if_neg hsf]
    by_cases hsc : s = capSq
    · rcases hcap with ⟨hct, hmt⟩ | ⟨_, _, _, hvic⟩
      · rw [if_pos hsc, hsc, hct, hmt]
      · rw [if_pos hsc, hsc, hvic]
    · rw [if_neg hsc]
      by_cases hst : s = m.to_sq
      · rcases hcap with ⟨hct, _⟩ | ⟨_, _, hmt, _⟩
        · exact absurd (hst.trans hct.symm) hsc
        · rw [if_pos hst, hst, hmt]
      · rw [if_neg hst, if_neg hst, if_neg hsf, if_neg hsc]

theorem mb_roundtrip_castle (mb : Nat → Option (Fin 2 × Fin 6)) (stm : Fin 2)
    (m : SMove)
    (hC : isCastleMove m = true)
    (hfrom : mb m.from_sq = some (stm, m.piece))
    (hft : m.from_sq ≠ m.to_sq)
    (hto : mb m.to_sq = none)
    (hrF : mb (castleRookFrom m) = some (stm, 3))
    (hrT : mb (castleRookTo m) = none)
    (hFf : castleRookFrom m ≠ m.from_sq) (hFt : castleRookFrom m ≠ m.to_sq)
    (hTf : castleRookTo m ≠ m.from_sq) (hTt : castleRookTo m ≠ m.to_sq)
    (hFT : castleRookFrom m ≠ castleRookTo m) :
    mbUnmake (mbMake mb stm m none m.to_sq) stm m none m.to_sq = mb := by
  funext s
  simp only [mbMake, mbUnmake, hC, if_true, mset]
  by_cases hsf : s = m.from_sq
  · rw [if_pos hsf, hsf, hfrom]
  · rw [if_neg hsf]
    by_cases hst : s = m.to_sq
    · rw [if_pos hst, hst, hto]
    · rw [if_neg hst]
      by_cases hsF : s = castleRookFrom m
      · rw [if_pos hsF, hsF, hrF]
      · rw [if_neg hsF]
        by_cases hsT : s = castleRookTo m
        · rw [if_pos hsT, hsT, hrT]
        · rw [if_neg hsT, if_neg hsT, if_neg hsF, if_neg hst, if_neg hsf]

theorem flipC_flipC : ∀ c : Fin 2, flipC (flipC c) = c := by decide

theorem fin2_ne_eq_flip : ∀ c d : Fin 2, c ≠ d → c = flipC d := by decide

theorem ep_not_castle (ep : Option Nat) (m : SMove) (h : isEpMove ep m = true) :
    isCastleMove m = false := by
  unfold isEpMove at h
  unfold isCastleMove
  simp only [Bool.and_eq_true, decide_eq_true_eq] at h
  simp only [Bool.and_eq_false_iff, decide_eq_false_iff_not]
  left
  rw [h.1]
  decide

/-- C4: for every board satisfying the move preconditions and every
such move, `make_move(m)` followed by `unmake_move()` leaves every
field of the board — bitboards, occupancies, mailbox, side to move,
castling rights, en-passant square, clocks, Zobrist key and history —
bit-identical to its prior value. -/
theorem c4_make_unmake_restores (Z : Zobrist) (b : FBoard) (m : SMove)
    (h : MovePre b m) :
    unmake_move (make_move Z b m) = some b := by
  obtain ⟨H1, Hft, Hao, Hep, Hnep, Hcas⟩ := h
  simp only [make_move, unmake_move, flipC_flipC, Option.some.injEq]
  apply FBoard.ext
  · exact bbUnmake_bbMake ..
  · exact occUnmake_occMake ..
  · rw [occUnmake_occMake]
    exact Hao.symm
  · by_cases hEp : isEpMove b.en_passant_square m = true
    · obtain ⟨hto, hvic, hvf, hvt⟩ := Hep hEp
      rw [if_pos hEp, if_pos hEp]
      exact mb_roundtrip_capture b.mailbox b.side_to_move m 0 _
        (ep_not_castle _ _ hEp) H1 Hft (Or.inr ⟨hvf, hvt, hto, hvic⟩)
    · have hEp' : isEpMove b.en_passant_square m = false :=
        Bool.not_eq_true _ ▸ hEp
      rw [if_neg hEp, if_neg hEp]
      rcases hmt : b.mailbox m.to_sq with _ | ⟨c, p⟩
      · simp only [hmt]
        by_cases hc : isCastleMove m = true
        · obtain ⟨_, hrF, hrT, hFf, hFt, hTf, hTt, hFT⟩ := Hcas hc
          exact mb_roundtrip_castle b.mailbox b.side_to_move m hc H1 Hft hmt
            hrF hrT hFf hFt hTf hTt hFT
        · exact mb_roundtrip_quiet b.mailbox b.side_to_move m
            (Bool.not_eq_true _ ▸ hc) H1 Hft hmt
      · have hcflip : c = flipC b.side_to_move := by
          apply fin2_ne_eq_flip
          intro hcs
          exact Hnep hEp' p (by rw [hmt, hcs])
        have hCfalse : isCastleMove m = false := by
          by_cases hc : isCastleMove m = true
          · obtain ⟨hto, _⟩ := Hcas hc
            rw [hmt] at hto
            exact absurd hto (by simp)
          · exact Bool.not_eq_true _ ▸ hc
        simp only [hmt, hcflip, if_pos rfl]
        exact mb_roundtrip_capture b.mailbox b.side_to_move m p _
          hCfalse H1 Hft (Or.inl ⟨rfl, by rw [hmt, hcflip]⟩)
  · rfl
  · rfl
  · rfl
  · rfl
  · by_cases hstm : b.side_to_move = (1 : Fin 2)
    · rw [if_pos hstm]
      show (if b.side_to_move = (1 : Fin 2) then b.fullmove_number + 1
        else b.fullmove_number) - 1 = b.fullmove_number
      rw [if_pos hstm]
      omega
    · rw [if_neg hstm]
      show (if b.side_to_move = (1 : Fin 2) then b.fullmove_number + 1
        else b.fullmove_number) = b.fullmove_number
      rw [if_neg hstm]
  · rfl
  · rfl

def c4Zob : Zobrist := ⟨fun _ _ _ => 0, fun _ => 0, fun _ => 0, 0⟩

/-- White king e1 and pawn e2, black king e8; White to move. -/
def c4Board : FBoard :=
  { bitboards := fun c p =>
      if c = 0 ∧ p = 0 then 1 <<< 12 else
      if c = 0 ∧ p = 5 then 1 <<< 4 else
      if c = 1 ∧ p = 5 then 1 <<< 60 else 0,
    occupancy := fun c => if c = 0 then (1 <<< 12) ||| (1 <<< 4) else 1 <<< 60,
    all_occupancy := ((1 <<< 12) ||| (1 <<< 4)) ||| (1 <<< 60),
    mailbox := fun s =>
      if s = 12 then some (0, 0) else
      if s = 4 then some (0, 5) else
      if s = 60 then some (1, 5) else none,
    side_to_move := 0, castling_rights := 0, en_passant_square := none,
    halfmove_clock := 0, fullmove_number := 1, zobrist_key := 0, history := [] }

/-- The double push e2-e4. -/
def c4Move : SMove := ⟨12, 28, 0, false, none⟩

/-- Closed instance: the double push e2-e4 on a three-piece board
satisfies the preconditions, and make followed by unmake restores the
board exactly. -/
theorem c4_make_unmake_restores_witness :
    MovePre c4Board c4Move ∧
    unmake_move (make_move c4Zob c4Board c4Move) = some c4Board :=
  ⟨by decide, c4_make_unmake_restores c4Zob c4Board c4Move (by decide)⟩
